import Mathlib

/-!
# Verification of the PowerRedis concurrency primitives

A shallow embedding, in Lean 4, of the algorithmic core of the `PowerRedis`
class (file `PowerRedis.ts`): the token lock (`lock` / `unlock` with its
compare-and-delete Lua script), the version-compatible list drain
(`lpopCountCompat`), the deduplicating bounded key scan (`keys`), the
pattern delete (`dropMany`), the windowed list iterator
(`getListIterator`), and the payload codec (`toPayload` / `fromPayload`).

The Redis store itself is an external collaborator; its commands
(`SET ... PX ... NX`, `EVAL` of the compare-and-delete script, `LRANGE`,
`LTRIM`, `SCAN`, `LPOP key count`, `LLEN`) are modelled by pure functions
with their documented semantics, and each store round trip is one atomic
step.  `async`/`await` suspension points do not interleave inside a single
command, so runs of the methods are modelled as sequences of these atomic
steps.  JavaScript numbers are modelled as integers (`Int`/`Nat`); every
quantity the embedded code manipulates here is integral.
-/

/-! ## The distributed lock: store-side state

The store holds, per lock key, at most one `(token, expiry)` record; this is
the state one `SET lockKey token PX ttl NX` or one `EVAL UNLOCK_LUA` acts on
atomically.  Timestamps and durations are in milliseconds. -/

/-- One lock key's server-side state: `none` when the key is absent,
`some (token, expiry)` when a value with an expiry timestamp is stored. -/
def LockState : Type := Option (String × Int)

/-- Is a stored record unexpired (hence visible) at instant `now`?  An
expired record behaves exactly like an absent key. -/
def lockLive (now : Int) : LockState → Bool
  | none => false
  | some (_, exp) => now < exp

/-- Semantics of `SET key token PX ttl NX` executed at instant `now`: write
`token` with expiry `now + ttl` only if the key is absent (or its record
expired); reply `true` for `OK`, `false` for the nil reply. -/
def setNxPx (now : Int) (token : String) (ttl : Int) (st : LockState) :
    Bool × LockState :=
  if lockLive now st then (false, st) else (true, some (token, now + ttl))

/-- Semantics of the `UNLOCK_LUA` script on one key at instant `now`:
`GET` the key (nil if absent or expired); if the value equals `token`,
`DEL` it and reply 1, else reply 0 and touch nothing. -/
def cadUnlock (now : Int) (token : String) (st : LockState) :
    Nat × LockState :=
  match st with
  | none => (0, none)
  | some (t, exp) =>
      if now < exp then
        if t = token then (1, none) else (0, some (t, exp))
      else (0, some (t, exp))

/-! ## `unlock` over the whole keyspace

`unlock(key, token)` forwards to one `EVAL` of

```
if redis.call("GET", KEYS[1]) == ARGV[1] then
    return redis.call("DEL", KEYS[1])
else
    return 0
end
```

and returns `Number(reply) === 1`.  To speak about other keys (other
holders' tokens) the script is also modelled on a full keyspace map; the
script mentions no TTL, so this view has none. -/

/-- A keyspace: each key holds a string value or is absent. -/
def RStore : Type := String → Option String

/-- The `UNLOCK_LUA` script, atomically: compare the stored value of `key`
with `token` and delete on equality, replying 1, else reply 0. -/
def evalUnlockLua (st : RStore) (key token : String) : Nat × RStore :=
  if st key = some token then
    (1, fun q => if q = key then none else st q)
  else (0, st)

/-- The `unlock` method: run the script once and report whether the reply
was `1`. -/
def unlockRun (st : RStore) (key token : String) : Bool × RStore :=
  let (reply, st') := evalUnlockLua st key token
  (reply == 1, st')

/-- C1 — `unlock` returns `true` exactly when the stored value equals the
caller's token (and then the key is deleted); on mismatch or absence it
returns `false` and the whole keyspace, in particular any other holder's
stored token, is untouched. -/
theorem unlock_compare_and_delete (st : RStore) (key token : String) :
    ((unlockRun st key token).1 = true ↔ st key = some token)
    ∧ ((unlockRun st key token).1 = true → (unlockRun st key token).2 key = none)
    ∧ (∀ q, q ≠ key → (unlockRun st key token).2 q = st q)
    ∧ ((unlockRun st key token).1 = false → (unlockRun st key token).2 = st) := by
  unfold unlockRun evalUnlockLua
  by_cases h : st key = some token
  · refine ⟨by simp [h], by simp [h], fun q hq => by simp [h, hq], by simp [h]⟩
  · refine ⟨by simp [h], by simp [h], fun q hq => by simp [h], by simp [h]⟩

/-- Witness for C1 at a concrete two-holder keyspace: releasing `lock:a`
with its own token succeeds and leaves holder `lock:b`'s token in place;
releasing with the wrong token reports `false`. -/
theorem unlock_compare_and_delete_witness :
    ((unlockRun
        (fun q => if q = "lock:a" then some "ta"
                  else if q = "lock:b" then some "tb" else none)
        "lock:a" "ta").1 = true)
    ∧ ((unlockRun
        (fun q => if q = "lock:a" then some "ta"
                  else if q = "lock:b" then some "tb" else none)
        "lock:a" "ta").2 "lock:b" = some "tb")
    ∧ ((unlockRun
        (fun q => if q = "lock:a" then some "ta"
                  else if q = "lock:b" then some "tb" else none)
        "lock:a" "wrong").1 = false) := by
  refine ⟨?_, ?_, ?_⟩
  · exact (unlock_compare_and_delete _ "lock:a" "ta").1.mpr (by decide)
  · exact (unlock_compare_and_delete _ "lock:a" "ta").2.2.1 "lock:b" (by decide)
  · have h := (unlock_compare_and_delete
      (fun q => if q = "lock:a" then some "ta"
                else if q = "lock:b" then some "tb" else none)
      "lock:a" "wrong").1
    simp only [show (if ("lock:a" : String) = "lock:a" then some "ta"
        else if ("lock:a" : String) = "lock:b" then some "tb" else none)
        = some "ta" from by decide] at h
    cases hb : (unlockRun
        (fun q => if q = "lock:a" then some "ta"
                  else if q = "lock:b" then some "tb" else none)
        "lock:a" "wrong").1
    · rfl
    · exact absurd (h.mp hb) (by decide)

/-- C2 — mutual exclusion of `lock` acquisition attempts on one key: from a
key with no live record, the first `SET ... NX` wins and installs the sole
record `(tok1, t1 + ttl1)`; a second attempt at `t2 ≥ t1` succeeds iff the
first holder's TTL has lapsed (`t1 + ttl1 ≤ t2`); and after the first
holder's compare-and-delete release the key is immediately acquirable. -/
theorem lock_mutual_exclusion (st0 : LockState) (t1 t2 t3 ttl1 ttl2 : Int)
    (tok1 tok2 : String)
    (h0 : lockLive t1 st0 = false) (h12 : t1 ≤ t2) (h13 : t1 ≤ t3) :
    ((setNxPx t1 tok1 ttl1 st0).1 = true)
    ∧ ((setNxPx t1 tok1 ttl1 st0).2 = some (tok1, t1 + ttl1))
    ∧ ((setNxPx t2 tok2 ttl2 (setNxPx t1 tok1 ttl1 st0).2).1 = true
        ↔ t1 + ttl1 ≤ t2)
    ∧ ((setNxPx t3 tok2 ttl2
          (cadUnlock t3 tok1 (setNxPx t1 tok1 ttl1 st0).2).2).1 = true) := by
  have hst1 : (setNxPx t1 tok1 ttl1 st0).2 = some (tok1, t1 + ttl1) := by
    simp [setNxPx, h0]
  refine ⟨by simp [setNxPx, h0], hst1, ?_, ?_⟩
  · rw [hst1]
    by_cases h : t2 < t1 + ttl1
    · have hl : lockLive t2 (some (tok1, t1 + ttl1)) = true := by
        simpa [lockLive] using h
      simp only [setNxPx, hl, if_true]
      constructor
      · intro hc; exact absurd hc (by decide)
      · intro hc; omega
    · have hl : lockLive t2 (some (tok1, t1 + ttl1)) = false := by
        simpa [lockLive] using h
      simp only [setNxPx, hl, Bool.false_eq_true, if_false]
      constructor
      · intro _; omega
      · intro _; trivial
  · rw [hst1]
    by_cases h : t3 < t1 + ttl1
    · have hrel : (cadUnlock t3 tok1 (some (tok1, t1 + ttl1))).2 = none := by
        simp [cadUnlock, h]
      rw [hrel]
      simp [setNxPx, lockLive]
    · have hrel : (cadUnlock t3 tok1 (some (tok1, t1 + ttl1))).2
          = some (tok1, t1 + ttl1) := by
        simp [cadUnlock, h]
      rw [hrel]
      have hl : lockLive t3 (some (tok1, t1 + ttl1)) = false := by
        simpa [lockLive] using h
      simp [setNxPx, hl]

/-- Witness for C2 with the spec's numbers: at `t1 = 0`, `ttl = 2000`, a
competing attempt at `t2 = 1000` is rejected while the first wins, and a
release lets an attempt at `t3 = 1000` through. -/
theorem lock_mutual_exclusion_witness :
    ((setNxPx 0 "ta" 2000 none).1 = true)
    ∧ ((setNxPx 0 "ta" 2000 none).2 = some ("ta", 0 + 2000))
    ∧ ((setNxPx 1000 "tb" 2000 (setNxPx 0 "ta" 2000 none).2).1 = true
        ↔ (0 : Int) + 2000 ≤ 1000)
    ∧ ((setNxPx 1000 "tb" 2000
          (cadUnlock 1000 "ta" (setNxPx 0 "ta" 2000 none).2).2).1 = true) :=
  lock_mutual_exclusion none 0 1000 1000 2000 2000 "ta" "tb"
    (by decide) (by decide) (by decide)

/-! ## `lpopCountCompat`: the two-path list drain

`LRANGE`/`LTRIM` are modelled with their Redis index semantics (inclusive
bounds, negative indices counted from the end).  The fallback transaction
`MULTI; LRANGE key 0 count-1; LTRIM key count -1; EXEC` is one atomic unit,
so it is one state-to-state function.  The native path, when the client
exposes `lpop(key, count)` and the command neither errors nor replies nil,
pops the head itself. -/

/-- `LRANGE key start stop` on a list value: inclusive range, negative
indices from the end, clamped; empty when the range is void. -/
def lrangeL (l : List String) (start stop : Int) : List String :=
  let n : Int := l.length
  let s : Int := if start < 0 then max 0 (n + start) else start
  let e : Int := min (if stop < 0 then n + stop else stop) (n - 1)
  if s ≤ e then (l.drop s.toNat).take (e - s + 1).toNat else []

/-- `LTRIM key start stop`: the list keeps exactly the elements `LRANGE`
with the same bounds would return. -/
def ltrimL (l : List String) (start stop : Int) : List String :=
  lrangeL l start stop

/-- How the client's native `lpop(key, count)` behaves for this call:
absent from the client (`isFunc(cli.lpop)` false), raising an error, or
working with the Redis ≥ 6.2 semantics (nil reply on an empty list, else
an array of up to `count` head items, removed from the list). -/
inductive NativePop
  | unsupported
  | failing
  | working
deriving DecidableEq

/-- How `tx.exec()` of the fallback transaction behaves: executing the two
queued commands, replying `null` (aborted transaction, no effect), or
rejecting with an error. -/
inductive TxExec
  | ok
  | aborted
  | failing
deriving DecidableEq

/-- The fallback path of `lpopCountCompat`: queue `LRANGE key 0 count-1`
and `LTRIM key count -1`, `exec`, and return the first reply (the read).
A `null` exec reply yields `[]` with the list untouched; a rejection
propagates.  Result: `(returned items, remaining list)`. -/
def txDrain (tx : TxExec) (l : List String) (count : Int) :
    Except Unit (List String × List String) :=
  match tx with
  | .failing => .error ()
  | .aborted => .ok ([], l)
  | .ok => .ok (lrangeL l 0 (count - 1), ltrimL l count (-1))

/-- `lpopCountCompat(key, count)`: try the native `lpop(key, count)` first;
on an array reply return it, on a single-string reply wrap it; when the
native call is unsupported, raises, or replies nil (empty list), fall
through to the transactional emulation. -/
def lpopCountCompat (native : NativePop) (tx : TxExec) (l : List String)
    (count : Int) : Except Unit (List String × List String) :=
  match native with
  | .unsupported => txDrain tx l count
  | .failing => txDrain tx l count
  | .working =>
      if l.isEmpty then txDrain tx l count
      else .ok (l.take count.toNat, l.drop count.toNat)

/-- The fallback's read: `LRANGE key 0 (count-1)` returns the first `count`
items (all of them when fewer are present). -/
theorem lrangeL_zero_count (l : List String) (count : Nat) (h : 1 ≤ count) :
    lrangeL l 0 ((count : Int) - 1) = l.take count := by
  unfold lrangeL
  have h0 : ¬ ((0 : Int) < 0) := by omega
  have hstop : ¬ ((count : Int) - 1 < 0) := by omega
  simp only [h0, if_false, hstop]
  rcases Nat.eq_zero_or_pos l.length with hn | hn
  · have hnil : l = [] := List.eq_nil_of_length_eq_zero hn
    subst hnil
    simp only [List.length_nil, Nat.cast_zero]
    rw [if_neg (by omega)]
    exact List.take_nil.symm
  · have hle : (0 : Int) ≤ min ((count : Int) - 1) ((l.length : Int) - 1) := by
      omega
    rw [if_pos hle]
    simp only [Int.toNat_zero, List.drop_zero]
    rcases le_or_lt (count : Int) (l.length : Int) with hcl | hcl
    · have hm : min ((count : Int) - 1) ((l.length : Int) - 1)
          = (count : Int) - 1 := by omega
      rw [hm]
      congr 1
      omega
    · have hm : min ((count : Int) - 1) ((l.length : Int) - 1)
          = (l.length : Int) - 1 := by omega
      rw [hm]
      have h1 : ((l.length : Int) - 1 - 0 + 1).toNat = l.length := by omega
      rw [h1, List.take_length, List.take_of_length_le (by omega)]

/-- The fallback's trim: `LTRIM key count -1` leaves everything after the
first `count` items. -/
theorem ltrimL_count_tail (l : List String) (count : Nat) :
    ltrimL l (count : Int) (-1) = l.drop count := by
  unfold ltrimL lrangeL
  have hs : ¬ ((count : Int) < 0) := by omega
  have he : ((-1 : Int) < 0) := by omega
  simp only [hs, if_false, he, if_true]
  have hm : min ((l.length : Int) + -1) ((l.length : Int) - 1)
      = (l.length : Int) - 1 := by omega
  rw [hm]
  rcases le_or_lt (count : Int) ((l.length : Int) - 1) with hcl | hcl
  · rw [if_pos hcl]
    have h1 : ((l.length : Int) - 1 - (count : Int) + 1).toNat
        = l.length - count := by omega
    rw [h1]
    exact List.take_of_length_le (by simp)
  · rw [if_neg (by omega)]
    exact (List.drop_eq_nil_of_le (by omega)).symm

/-- C3 — the fallback path (native pop disabled, transaction executed)
returns exactly the first `min count l.length` items of the list in order
and leaves exactly the rest in order; popped and remainder recompose the
original list. -/
theorem lpop_fallback_take_drop (l : List String) (count : Nat)
    (h : 1 ≤ count) :
    lpopCountCompat .unsupported .ok l count
      = .ok (l.take count, l.drop count)
    ∧ (l.take count).length = min count l.length
    ∧ l.take count ++ l.drop count = l := by
  refine ⟨?_, by simp [Nat.min_comm], List.take_append_drop count l⟩
  show txDrain .ok l count = _
  unfold txDrain
  rw [lrangeL_zero_count l count h, ltrimL_count_tail l count]

/-- Witness for C3 on the spec's example: with the native pop disabled,
draining 4 from the 10-item list `[a..j]` returns `[a,b,c,d]` and leaves
`[e..j]`; a 2-item list drained by 4 yields both items (no error); an
empty list yields `[]`. -/
theorem lpop_fallback_take_drop_witness :
    (1 ≤ 4
      ∧ lpopCountCompat .unsupported .ok
          ["a","b","c","d","e","f","g","h","i","j"] 4
        = .ok (["a","b","c","d"], ["e","f","g","h","i","j"]))
    ∧ lpopCountCompat .unsupported .ok ["a","b"] 4 = .ok (["a","b"], [])
    ∧ lpopCountCompat .unsupported .ok [] 4 = .ok ([], []) := by
  refine ⟨⟨by decide, ?_⟩, ?_, ?_⟩
  · exact (lpop_fallback_take_drop
      ["a","b","c","d","e","f","g","h","i","j"] 4 (by decide)).1
  · exact (lpop_fallback_take_drop ["a","b"] 4 (by decide)).1
  · exact (lpop_fallback_take_drop [] 4 (by decide)).1

/-- C8 — a native-pop failure (or its absence from the client) is swallowed:
the call falls through to the transactional emulation and returns exactly
its result.  This is the only suppression on the path: whenever the
transaction runs and its `exec` rejects, the error surfaces; the only runs
that never reach the transaction are native successes on a non-empty list. -/
theorem lpop_native_error_fallback :
    (∀ (tx : TxExec) (l : List String) (count : Int),
        lpopCountCompat .failing tx l count = txDrain tx l count
        ∧ lpopCountCompat .unsupported tx l count = txDrain tx l count)
    ∧ (∀ (l : List String) (count : Int),
        lpopCountCompat .failing .ok l count
          = .ok (lrangeL l 0 (count - 1), ltrimL l count (-1)))
    ∧ (∀ (native : NativePop) (l : List String) (count : Int),
        lpopCountCompat native .failing l count = .error ()
        ∨ (native = .working ∧ l ≠ [])) := by
  refine ⟨fun tx l count => ⟨rfl, rfl⟩, fun l count => rfl, ?_⟩
  intro native l count
  cases native with
  | unsupported => exact .inl rfl
  | failing => exact .inl rfl
  | working =>
      rcases hl : l.isEmpty with hfalse | htrue
      · exact .inr ⟨rfl, by simpa [List.isEmpty_iff] using hl⟩
      · refine .inl ?_
        show (if l.isEmpty then txDrain .failing l count else _) = _
        rw [hl, if_pos rfl]
        rfl

/-! ## `keys`: deduplicating bounded SCAN

The cursor protocol is abstracted as the sequence of pages the store's
`SCAN` serves for this pattern: each loop iteration consumes one page, and
the store signals completion after the last (cursor back at `'0'`).  The
same key may appear on several pages.  The `Set` accumulator is modelled as
a duplicate-free list in insertion order. -/

/-- The `Set.add` step of the loop: insert a scanned key unless present. -/
def insertKey (acc : List String) (k : String) : List String :=
  if k ∈ acc then acc else acc ++ [k]

/-- Folding a whole stream of scanned keys through `insertKey` — the
accumulator the loop would build with no `limit` check. -/
def dedupAcc (acc : List String) (ks : List String) : List String :=
  ks.foldl insertKey acc

/-- The inner `for (const k of found)` loop over one page: insert unseen
keys one at a time, returning the accumulator and whether the
`keys.size >= limit` early return fired (mid-page). -/
def scanPage (limit : Nat) (acc : List String) : List String → List String × Bool
  | [] => (acc, false)
  | k :: ks =>
      if k ∈ acc then scanPage limit acc ks
      else
        if limit ≤ (acc ++ [k]).length then (acc ++ [k], true)
        else scanPage limit (acc ++ [k]) ks

/-- The outer do-while: consume scan pages until the early return fires or
the pages are exhausted.  Returns the collected keys and the number of
`SCAN` round trips made. -/
def keysRun (limit : Nat) (acc : List String) :
    List (List String) → List String × Nat
  | [] => (acc, 0)
  | p :: ps =>
      match scanPage limit acc p with
      | (acc', true) => (acc', 1)
      | (acc', false) =>
          let r := keysRun limit acc' ps
          (r.1, r.2 + 1)

/-- `dedupAcc` only ever appends: the prior accumulator is kept in front. -/
theorem dedupAcc_extend (ks : List String) :
    ∀ acc, ∃ t, dedupAcc acc ks = acc ++ t := by
  induction ks with
  | nil => exact fun acc => ⟨[], by simp [dedupAcc]⟩
  | cons k ks ih =>
      intro acc
      show ∃ t, dedupAcc (insertKey acc k) ks = acc ++ t
      unfold insertKey
      by_cases hk : k ∈ acc
      · rw [if_pos hk]; exact ih acc
      · rw [if_neg hk]
        obtain ⟨t, ht⟩ := ih (acc ++ [k])
        exact ⟨[k] ++ t, by rw [ht, List.append_assoc]⟩

/-- `dedupAcc` keeps the accumulator duplicate-free. -/
theorem dedupAcc_nodup (ks : List String) :
    ∀ acc, acc.Nodup → (dedupAcc acc ks).Nodup := by
  induction ks with
  | nil => exact fun acc h => h
  | cons k ks ih =>
      intro acc hacc
      show (dedupAcc (insertKey acc k) ks).Nodup
      unfold insertKey
      by_cases hk : k ∈ acc
      · rw [if_pos hk]; exact ih acc hacc
      · rw [if_neg hk]
        refine ih (acc ++ [k]) ?_
        simpa [List.nodup_append] using ⟨hacc, hk⟩

/-- The members of the accumulator after a fold are the old ones plus the
scanned keys. -/
theorem dedupAcc_toFinset (ks : List String) :
    ∀ acc, (dedupAcc acc ks).toFinset = acc.toFinset ∪ ks.toFinset := by
  induction ks with
  | nil => intro acc; simp [dedupAcc]
  | cons k ks ih =>
      intro acc
      show (dedupAcc (insertKey acc k) ks).toFinset = _
      unfold insertKey
      by_cases hk : k ∈ acc
      · rw [if_pos hk, ih acc]
        ext x
        simp only [Finset.mem_union, List.mem_toFinset, List.mem_cons]
        constructor
        · rintro (hx | hx)
          · exact .inl hx
          · exact .inr (.inr hx)
        · rintro (hx | hx | hx)
          · exact .inl hx
          · exact .inl (hx ▸ hk)
          · exact .inr hx
      · rw [if_neg hk, ih (acc ++ [k])]
        ext x
        simp only [Finset.mem_union, List.mem_toFinset, List.mem_append,
          List.mem_cons, List.mem_singleton]
        tauto

/-- Taking at most the guaranteed part of an extended list ignores the
extension. -/
theorem take_append_left (acc t : List String) (limit : Nat)
    (h : limit ≤ acc.length) :
    (acc ++ t).take limit = acc.take limit := by
  rw [List.take_append_eq_append_take, Nat.sub_eq_zero_of_le h,
    List.take_zero, List.append_nil]

/-- One page of the scan loop behaves as: fold the page into the
accumulator and cut at `limit`; the early return fires exactly when the
deduplicated accumulator reached `limit`. -/
theorem scanPage_eq (limit : Nat) (p : List String) :
    ∀ acc, acc.length < limit →
      scanPage limit acc p
        = ((dedupAcc acc p).take limit,
           decide (limit ≤ (dedupAcc acc p).length)) := by
  induction p with
  | nil =>
      intro acc hacc
      show (acc, false) = _
      rw [show dedupAcc acc [] = acc from rfl,
        List.take_of_length_le (Nat.le_of_lt hacc)]
      have : decide (limit ≤ acc.length) = false :=
        decide_eq_false (by omega)
      rw [this]
  | cons k ks ih =>
      intro acc hacc
      have hstep : dedupAcc acc (k :: ks) = dedupAcc (insertKey acc k) ks := rfl
      by_cases hk : k ∈ acc
      · have hins : insertKey acc k = acc := by simp [insertKey, hk]
        show (if k ∈ acc then scanPage limit acc ks
              else if limit ≤ (acc ++ [k]).length then (acc ++ [k], true)
              else scanPage limit (acc ++ [k]) ks) = _
        rw [if_pos hk, hstep, hins]
        exact ih acc hacc
      · have hins : insertKey acc k = acc ++ [k] := by simp [insertKey, hk]
        show (if k ∈ acc then scanPage limit acc ks
              else if limit ≤ (acc ++ [k]).length then (acc ++ [k], true)
              else scanPage limit (acc ++ [k]) ks) = _
        rw [if_neg hk, hstep, hins]
        by_cases hfull : limit ≤ (acc ++ [k]).length
        · rw [if_pos hfull]
          obtain ⟨t, ht⟩ := dedupAcc_extend ks (acc ++ [k])
          have hlen1 : (acc ++ [k]).length ≤ limit := by
            rw [List.length_append]
            simp only [List.length_singleton]
            omega
          have hlen2 : decide (limit ≤ (acc ++ [k] ++ t).length) = true := by
            refine decide_eq_true ?_
            rw [List.length_append]
            omega
          rw [ht, take_append_left _ _ _ hfull,
            List.take_of_length_le hlen1, hlen2]
        · rw [if_neg hfull]
          exact ih (acc ++ [k]) (by omega)

/-- The whole `keys` loop collects the first `limit` distinct scanned keys
in stream order: its accumulator is the limit-cut of the deduplicating
fold over all pages. -/
theorem keysRun_fst (limit : Nat) :
    ∀ (pages : List (List String)) (acc : List String), acc.length < limit →
      (keysRun limit acc pages).1 = (dedupAcc acc pages.flatten).take limit := by
  intro pages
  induction pages with
  | nil =>
      intro acc hacc
      show acc = _
      rw [show (List.flatten ([] : List (List String))) = [] from rfl,
        show dedupAcc acc [] = acc from rfl,
        List.take_of_length_le (Nat.le_of_lt hacc)]
  | cons p ps ih =>
      intro acc hacc
      have hjoin : (p :: ps).flatten = p ++ ps.flatten := List.flatten_cons ..
      have hsplit : dedupAcc acc (p ++ ps.flatten)
          = dedupAcc (dedupAcc acc p) ps.flatten := List.foldl_append ..
      show (match scanPage limit acc p with
            | (acc', true) => (acc', 1)
            | (acc', false) =>
                let r := keysRun limit acc' ps
                (r.1, r.2 + 1)).1 = _
      rw [scanPage_eq limit p acc hacc]
      by_cases hfull : limit ≤ (dedupAcc acc p).length
      · rw [decide_eq_true hfull]
        show (dedupAcc acc p).take limit = _
        obtain ⟨t, ht⟩ := dedupAcc_extend ps.flatten (dedupAcc acc p)
        rw [hjoin, hsplit, ht, take_append_left _ _ _ hfull]
      · rw [decide_eq_false hfull]
        show (keysRun limit ((dedupAcc acc p).take limit) ps).1 = _
        have hlt : (dedupAcc acc p).length < limit := by omega
        rw [List.take_of_length_le (Nat.le_of_lt hlt), hjoin, hsplit]
        exact ih (dedupAcc acc p) hlt

/-- The loop stops issuing `SCAN`s as soon as the accumulator can have
reached `limit`: if the first `k` pages already carry `limit` distinct
keys (on top of the accumulator), at most `k` round trips happen. -/
theorem keysRun_stops (limit : Nat) :
    ∀ (pages : List (List String)) (k : Nat) (acc : List String),
      acc.Nodup → acc.length < limit →
      limit ≤ (acc.toFinset ∪ ((pages.take k).flatten).toFinset).card →
      (keysRun limit acc pages).2 ≤ k := by
  intro pages
  induction pages with
  | nil =>
      intro k acc _ _ _
      show 0 ≤ k
      omega
  | cons p ps ih =>
      intro k acc hnd hacc hcard
      match k with
      | 0 =>
          exfalso
          rw [List.take_zero] at hcard
          have : (acc.toFinset ∪ (List.flatten ([] : List (List String))).toFinset).card
              = acc.length := by
            rw [show (List.flatten ([] : List (List String))) = [] from rfl]
            simp [List.toFinset_card_of_nodup hnd]
          omega
      | k + 1 =>
          show (match scanPage limit acc p with
                | (acc', true) => (acc', 1)
                | (acc', false) =>
                    let r := keysRun limit acc' ps
                    (r.1, r.2 + 1)).2 ≤ k + 1
          rw [scanPage_eq limit p acc hacc]
          by_cases hfull : limit ≤ (dedupAcc acc p).length
          · rw [decide_eq_true hfull]
            show 1 ≤ k + 1
            omega
          · rw [decide_eq_false hfull]
            show (keysRun limit ((dedupAcc acc p).take limit) ps).2 + 1 ≤ k + 1
            have hlt : (dedupAcc acc p).length < limit := by omega
            rw [List.take_of_length_le (Nat.le_of_lt hlt)]
            have hrec := ih k (dedupAcc acc p) (dedupAcc_nodup p acc hnd) hlt ?_
            · omega
            · rw [dedupAcc_toFinset]
              have hT : ((p :: ps).take (k + 1)).flatten
                  = p ++ (ps.take k).flatten := by
                rw [List.take_succ_cons, List.flatten_cons]
              rw [hT, List.toFinset_append, ← Finset.union_assoc] at hcard
              exact hcard

/-- C4 — `keys` returns each scanned key at most once, its result size is
`min(distinct keys scanned, limit)`, every returned key came from the
scan, and the loop stops requesting pages as soon as `limit` distinct
keys have been seen. -/
theorem keys_dedup_limit_early_stop (pages : List (List String)) (limit : Nat)
    (h : 1 ≤ limit) :
    (keysRun limit [] pages).1.Nodup
    ∧ (keysRun limit [] pages).1.length
        = min (pages.flatten.toFinset.card) limit
    ∧ (∀ x ∈ (keysRun limit [] pages).1, x ∈ pages.flatten)
    ∧ (∀ k, limit ≤ ((pages.take k).flatten).toFinset.card →
        (keysRun limit [] pages).2 ≤ k) := by
  have h0 : ([] : List String).length < limit := by simpa using h
  have hfst := keysRun_fst limit pages [] h0
  have hnodup : (dedupAcc [] pages.flatten).Nodup :=
    dedupAcc_nodup pages.flatten [] List.nodup_nil
  have hfin : (dedupAcc [] pages.flatten).toFinset = pages.flatten.toFinset := by
    rw [dedupAcc_toFinset]
    simp
  refine ⟨?_, ?_, ?_, ?_⟩
  · rw [hfst]
    exact (List.take_sublist limit _).nodup hnodup
  · rw [hfst, List.length_take, ← List.toFinset_card_of_nodup hnodup, hfin,
      Nat.min_comm]
  · intro x hx
    rw [hfst] at hx
    have hx' : x ∈ dedupAcc [] pages.flatten :=
      (List.take_sublist limit _).mem hx
    have : x ∈ (dedupAcc [] pages.flatten).toFinset := by
      simpa using hx'
    rw [hfin] at this
    simpa using this
  · intro k hk
    refine keysRun_stops limit pages k [] List.nodup_nil h0 ?_
    simpa using hk

/-- Witness for C4 at overlapping pages `[[a,b],[b,c],[d]]` with limit 2:
`b` is not repeated, the result holds `min(4, 2) = 2` keys, and because
the first two pages already carry two distinct keys, at most two scans
are issued. -/
theorem keys_dedup_limit_early_stop_witness :
    1 ≤ 2
    ∧ ((keysRun 2 [] [["a","b"],["b","c"],["d"]]).1.Nodup
    ∧ (keysRun 2 [] [["a","b"],["b","c"],["d"]]).1.length
        = min ([["a","b"],["b","c"],["d"]] : List (List String)).flatten.toFinset.card 2
    ∧ (∀ x ∈ (keysRun 2 [] [["a","b"],["b","c"],["d"]]).1,
        x ∈ ([["a","b"],["b","c"],["d"]] : List (List String)).flatten)
    ∧ (∀ k, 2 ≤ ((([["a","b"],["b","c"],["d"]] : List (List String)).take k).flatten).toFinset.card →
        (keysRun 2 [] [["a","b"],["b","c"],["d"]]).2 ≤ k)) :=
  ⟨by decide, keys_dedup_limit_early_stop [["a","b"],["b","c"],["d"]] 2 (by decide)⟩

/-! ## `dropMany`: pattern delete over a full scan traversal

`dropMany(pattern, size)` runs its own `SCAN` do-while (it does not call
`keys` and keeps no `Set`): per page it adds `keys.length` to `total`,
slices the page into sub-batches of at most `size`, and issues one
`UNLINK` (or `DEL`) per sub-batch.  The model returns the reported total
and the issued delete batches in order. -/

/-- The inner `for (let i = 0; i < keys.length; i += size)` slicing of one
scanned page into delete batches of at most `size` keys. -/
def chunksOf (size : Nat) (l : List String) : List (List String) :=
  if l = [] ∨ size = 0 then []
  else l.take size :: chunksOf size (l.drop size)
termination_by l.length
decreasing_by
  rename_i h
  push_neg at h
  have hl : l ≠ [] := h.1
  have hs : size ≠ 0 := h.2
  have : 0 < l.length := List.length_pos.mpr hl
  rw [List.length_drop]
  omega

/-- The `dropMany` scan loop: per page, grow the reported total by the
page's raw length and emit its delete batches. -/
def dropManyRun (size : Nat) : List (List String) → Nat × List (List String)
  | [] => (0, [])
  | p :: ps =>
      let r := dropManyRun size ps
      (p.length + r.1, chunksOf size p ++ r.2)

/-- Delete batches cover the page exactly, in order. -/
theorem chunksOf_flatten (size : Nat) (hs : 1 ≤ size) :
    ∀ l : List String, (chunksOf size l).flatten = l := by
  have H : ∀ n, ∀ l : List String, l.length ≤ n →
      (chunksOf size l).flatten = l := by
    intro n
    induction n with
    | zero =>
        intro l hl
        have : l = [] := List.eq_nil_of_length_eq_zero (by omega)
        subst this
        rw [chunksOf, if_pos (.inl rfl)]
        rfl
    | succ n ih =>
        intro l hl
        rw [chunksOf]
        by_cases he : l = [] ∨ size = 0
        · rcases he with he | he
          · subst he
            rw [if_pos (.inl rfl)]
            rfl
          · omega
        · rw [if_neg he]
          push_neg at he
          have hpos : 0 < l.length := List.length_pos.mpr he.1
          rw [List.flatten_cons,
            ih (l.drop size) (by rw [List.length_drop]; omega)]
          exact List.take_append_drop size l
  exact fun l => H l.length l le_rfl

/-- Every delete batch holds at most `size` keys. -/
theorem chunksOf_size_le (size : Nat) :
    ∀ l : List String, ∀ b ∈ chunksOf size l, b.length ≤ size := by
  have H : ∀ n, ∀ l : List String, l.length ≤ n →
      ∀ b ∈ chunksOf size l, b.length ≤ size := by
    intro n
    induction n with
    | zero =>
        intro l hl b hb
        have : l = [] := List.eq_nil_of_length_eq_zero (by omega)
        subst this
        rw [chunksOf, if_pos (.inl rfl)] at hb
        exact absurd hb (List.not_mem_nil b)
    | succ n ih =>
        intro l hl b hb
        rw [chunksOf] at hb
        by_cases he : l = [] ∨ size = 0
        · rw [if_pos he] at hb
          exact absurd hb (List.not_mem_nil b)
        · rw [if_neg he] at hb
          push_neg at he
          have hpos : 0 < l.length := List.length_pos.mpr he.1
          have hs : size ≠ 0 := he.2
          rcases List.mem_cons.mp hb with hb | hb
          · subst hb
            rw [List.length_take]
            omega
          · exact ih (l.drop size) (by rw [List.length_drop]; omega) b hb
  exact fun l => H l.length l le_rfl

/-- The reported total is the sum of the raw page lengths — duplicates
across pages counted every time they are scanned. -/
theorem dropManyRun_total (size : Nat) :
    ∀ pages : List (List String),
      (dropManyRun size pages).1 = (pages.map List.length).sum := by
  intro pages
  induction pages with
  | nil => rfl
  | cons p ps ih =>
      show p.length + (dropManyRun size ps).1 = _
      rw [ih, List.map_cons, List.sum_cons]

/-- C7 as stated is false on the code: `dropMany` does not deduplicate
across scan pages.  With the scan serving the key `a` on two pages (legal
for the cursor protocol), the reported count is 2 while only 1 distinct
key was discovered. -/
theorem dropMany_counts_duplicates :
    (dropManyRun 1000 [["a"], ["a"]]).1 = 2
    ∧ (([["a"], ["a"]] : List (List String)).flatten.toFinset.card = 1)
    ∧ (dropManyRun 1000 [["a"], ["a"]]).1
        ≠ ([["a"], ["a"]] : List (List String)).flatten.toFinset.card := by
  refine ⟨rfl, ?_, ?_⟩ <;> simp [dropManyRun, chunksOf]

/-- C7 amended — `dropMany` traverses every scan page (no limit
short-circuit), deletes every discovered key in sub-batches of at most
`size`, and reports the raw number of scanned keys (summed over pages);
when the scan serves no key twice — e.g. a stable keyspace with no
concurrent writers — this equals the number of distinct matching keys,
and every one of them is deleted. -/
theorem dropMany_full_traversal (pages : List (List String)) (size : Nat)
    (hs : 1 ≤ size) :
    (dropManyRun size pages).1 = (pages.map List.length).sum
    ∧ (dropManyRun size pages).2.flatten = pages.flatten
    ∧ (∀ b ∈ (dropManyRun size pages).2, b.length ≤ size)
    ∧ (pages.flatten.Nodup →
        (dropManyRun size pages).1 = pages.flatten.toFinset.card) := by
  refine ⟨dropManyRun_total size pages, ?_, ?_, ?_⟩
  · induction pages with
    | nil => rfl
    | cons p ps ih =>
        show (chunksOf size p ++ (dropManyRun size ps).2).flatten = _
        rw [List.flatten_append, chunksOf_flatten size hs p, ih,
          List.flatten_cons]
  · induction pages with
    | nil =>
        intro b hb
        exact absurd hb (List.not_mem_nil b)
    | cons p ps ih =>
        intro b hb
        rcases List.mem_append.mp hb with hb | hb
        · exact chunksOf_size_le size p b hb
        · exact ih b hb
  · intro hnd
    rw [dropManyRun_total size pages, List.toFinset_card_of_nodup hnd]
    induction pages with
    | nil => rfl
    | cons p ps ih =>
        rw [List.flatten_cons, List.length_append] at *
        rw [List.map_cons, List.sum_cons,
          ih ((List.nodup_append.mp hnd).2.1)]

/-- Witness for the amended C7: 5 distinct keys over two pages with
`size = 2` are all deleted in batches of ≤ 2 and counted exactly once
each. -/
theorem dropMany_full_traversal_witness :
    1 ≤ 2
    ∧ ((dropManyRun 2 [["k1","k2","k3"],["k4","k5"]]).1
        = (([["k1","k2","k3"],["k4","k5"]] : List (List String)).map List.length).sum
    ∧ (dropManyRun 2 [["k1","k2","k3"],["k4","k5"]]).2.flatten
        = ([["k1","k2","k3"],["k4","k5"]] : List (List String)).flatten
    ∧ (∀ b ∈ (dropManyRun 2 [["k1","k2","k3"],["k4","k5"]]).2, b.length ≤ 2)
    ∧ (([["k1","k2","k3"],["k4","k5"]] : List (List String)).flatten.Nodup →
        (dropManyRun 2 [["k1","k2","k3"],["k4","k5"]]).1
          = ([["k1","k2","k3"],["k4","k5"]] : List (List String)).flatten.toFinset.card)) :=
  ⟨by decide, dropMany_full_traversal [["k1","k2","k3"],["k4","k5"]] 2 (by decide)⟩

/-! ## `getListIterator`, non-destructive mode

With `remove = false` the iterator reads `LLEN` once — the result `n` is
fixed for the whole traversal — then loops `while (start < n)`, requesting
`LRANGE key start (min (start+limit-1) (n-1))` and advancing `start` by
`limit` each iteration, yielding or skipping the chunk but never changing
the stride.  Because the list is shared and mutable, the list value each
`LRANGE` observes is given per iteration (`states i`); the loop control
depends only on `n`.  The loop body runs at most `n` times (the stride is
`limit ≥ 1`), so the while loop is given with that much fuel. -/

/-- The window bounds the non-destructive loop requests: from `start`, one
`(start, min (start+w-1) (n-1))` pair per iteration, stride `w`. -/
def pagerGo (n w : Nat) : Nat → Nat → List (Nat × Nat)
  | 0, _ => []
  | fuel + 1, start =>
      if start < n then
        (start, min (start + w - 1) (n - 1)) :: pagerGo n w fuel (start + w)
      else []

/-- All window bounds of a non-destructive traversal of a list of initial
length `n` with window size `w`. -/
def pagerWindows (n w : Nat) : List (Nat × Nat) :=
  pagerGo n w n 0

/-- The same loop together with the `LRANGE` replies: at iteration `i` the
shared list holds `states i`, and the chunk read is the requested range of
that value.  The loop control never consults the chunk. -/
def pagerTrace (states : Nat → List String) (n w : Nat) :
    Nat → Nat → Nat → List ((Nat × Nat) × List String)
  | 0, _, _ => []
  | fuel + 1, start, i =>
      if start < n then
        ((start, min (start + w - 1) (n - 1)),
          lrangeL (states i) start (min (start + w - 1) (n - 1)))
          :: pagerTrace states n w fuel (start + w) (i + 1)
      else []

/-- The requested windows are independent of what the range reads return:
the stride advances by `w` even through short or empty chunks. -/
theorem pagerTrace_windows (states : Nat → List String) (n w : Nat) :
    ∀ fuel start i,
      (pagerTrace states n w fuel start i).map Prod.fst
        = pagerGo n w fuel start := by
  intro fuel
  induction fuel with
  | zero => intro start i; rfl
  | succ fuel ih =>
      intro start i
      by_cases hs : start < n
      · simp only [pagerTrace, pagerGo, if_pos hs, List.map_cons,
          ih (start + w) (i + 1)]
      · simp only [pagerTrace, pagerGo, if_neg hs, List.map_nil]

/-- Characterization of the loop: starting from `start`, the window bounds
are `(start + i*w, min (start + i*w + w - 1) (n-1))` for
`i < ⌈(n - start) / w⌉`, provided the fuel covers the iterations. -/
theorem pagerGo_eq (n w : Nat) (hw : 1 ≤ w) :
    ∀ fuel start, n - start ≤ fuel →
      pagerGo n w fuel start
        = (List.range ((n - start + w - 1) / w)).map
            (fun i => (start + i * w, min (start + i * w + w - 1) (n - 1))) := by
  intro fuel
  induction fuel with
  | zero =>
      intro start h
      have h1 : n - start = 0 := by omega
      rw [show pagerGo n w 0 start = [] from rfl, h1,
        Nat.div_eq_of_lt (by omega)]
      rfl
  | succ fuel ih =>
      intro start h
      by_cases hs : start < n
      · have hdiv : (n - start + w - 1) / w
            = ((n - (start + w)) + w - 1) / w + 1 := by
          by_cases hwm : w ≤ n - start
          · have e1 : n - start + w - 1 = ((n - (start + w)) + w - 1) + w := by
              omega
            rw [e1, Nat.add_div_right _ (by omega)]
          · have e0 : n - (start + w) = 0 := by omega
            rw [e0,
              @Nat.div_eq_of_lt_le 1 w (n - start + w - 1) (by omega) (by omega),
              Nat.div_eq_of_lt (by omega)]
        simp only [pagerGo, if_pos hs]
        rw [ih (start + w) (by omega), hdiv, List.range_succ_eq_map]
        simp only [List.map_cons, List.map_map, Nat.zero_mul, Nat.add_zero]
        refine congrArg₂ List.cons rfl (List.map_congr_left ?_)
        intro i _
        have e2 : start + Nat.succ i * w = start + w + i * w := by
          rw [Nat.succ_mul]
          omega
        simp only [Function.comp_apply, e2]
      · simp only [pagerGo, if_neg hs]
        have h1 : n - start = 0 := by omega
        rw [h1, Nat.div_eq_of_lt (by omega)]
        rfl

/-- Every run of the loop is a chain of non-overlapping windows: each
window closes strictly before the next one opens. -/
theorem pagerGo_disjoint (n w : Nat) (hw : 1 ≤ w) :
    ∀ fuel start, List.Chain' (fun a b => a.2 < b.1) (pagerGo n w fuel start) := by
  have hhead : ∀ fuel s, pagerGo n w fuel s = []
      ∨ ∃ e r, pagerGo n w fuel s = (s, e) :: r := by
    intro fuel s
    match fuel with
    | 0 => exact .inl rfl
    | fuel + 1 =>
        by_cases hs : s < n
        · exact .inr ⟨min (s + w - 1) (n - 1), pagerGo n w fuel (s + w),
            by simp only [pagerGo, if_pos hs]⟩
        · exact .inl (by simp only [pagerGo, if_neg hs])
  intro fuel
  induction fuel with
  | zero => intro start; exact List.chain'_nil
  | succ fuel ih =>
      intro start
      by_cases hs : start < n
      · simp only [pagerGo, if_pos hs]
        rcases hhead fuel (start + w) with he | ⟨e, r, he⟩
        · rw [he]
          exact List.chain'_singleton _
        · rw [he]
          refine List.Chain'.cons ?_ (he ▸ ih (start + w))
          show min (start + w - 1) (n - 1) < start + w
          omega
      · simp only [pagerGo, if_neg hs]
        exact List.chain'_nil

/-- C9 as stated is false on the code: the requested window is clamped to
the initially read end of the list, `stop = min(start + w - 1, n - 1)`,
not the fixed `start + w - 1`.  With `n = 5`, `w = 4` the second range
read is `(4, 4)`, never `(4, 7)`. -/
theorem pager_window_clamped_cex :
    pagerWindows 5 4 = [(0, 3), (4, 4)]
    ∧ ¬ (∀ win ∈ pagerWindows 5 4, win.2 = win.1 + 4 - 1) := by
  constructor
  · rfl
  · intro hall
    have := hall (4, 4) (by rw [show pagerWindows 5 4 = [(0,3),(4,4)] from rfl]; simp)
    simp at this

/-- C9 amended — the non-destructive iterator reads the length once (the
loop bound `n` is fixed), issues one range read per window
`[start, min(start + w - 1, n - 1)]`, `start` climbing `0, w, 2w, …` for
exactly `⌈n / w⌉` iterations — by `w` after every iteration, no matter
what the reads returned — and stops at the first `start ≥ n`; the windows
never overlap. -/
theorem pager_fixed_stride (states : Nat → List String) (n w : Nat)
    (hw : 1 ≤ w) :
    ((pagerTrace states n w n 0 0).map Prod.fst = pagerWindows n w)
    ∧ pagerWindows n w
        = (List.range ((n + w - 1) / w)).map
            (fun i => (i * w, min (i * w + w - 1) (n - 1)))
    ∧ List.Chain' (fun a b => a.2 < b.1) (pagerWindows n w)
    ∧ (∀ win ∈ pagerWindows n w, win.1 < n) := by
  refine ⟨pagerTrace_windows states n w n 0 0, ?_, pagerGo_disjoint n w hw n 0, ?_⟩
  · rw [pagerWindows, pagerGo_eq n w hw n 0 (by omega), Nat.sub_zero]
    refine List.map_congr_left ?_
    intro i _
    simp only [Nat.zero_add]
  · intro win hwin
    rw [pagerWindows, pagerGo_eq n w hw n 0 (by omega), Nat.sub_zero] at hwin
    obtain ⟨i, hi, hwin⟩ := List.mem_map.mp hwin
    rw [List.mem_range] at hi
    subst hwin
    show 0 + i * w < n
    by_cases hn : n = 0
    · subst hn
      rw [Nat.div_eq_of_lt (by omega)] at hi
      omega
    · have : i * w ≤ ((n + w - 1) / w - 1) * w := by
        exact Nat.mul_le_mul_right w (by omega)
      have hceil : ((n + w - 1) / w - 1) * w < n := by
        have hd : (n + w - 1) / w * w ≤ n + w - 1 := Nat.div_mul_le_self _ _
        have hpos : 1 ≤ (n + w - 1) / w := by
          refine (Nat.one_le_div_iff (by omega)).mpr (by omega)
        have hkw : w ≤ (n + w - 1) / w * w := by
          calc w = 1 * w := (Nat.one_mul w).symm
            _ ≤ (n + w - 1) / w * w := Nat.mul_le_mul_right w hpos
        have : ((n + w - 1) / w - 1) * w + w ≤ n + w - 1 := by
          rw [Nat.sub_one_mul]
          omega
        omega
      omega

/-- Witness for the amended C9 with `n = 5`, `w = 4` (two iterations, the
second window clamped). -/
theorem pager_fixed_stride_witness :
    1 ≤ 4
    ∧ (((pagerTrace (fun _ => ["a","b","c","d","e"]) 5 4 5 0 0).map Prod.fst
          = pagerWindows 5 4)
    ∧ pagerWindows 5 4
        = (List.range ((5 + 4 - 1) / 4)).map
            (fun i => (i * 4, min (i * 4 + 4 - 1) (5 - 1)))
    ∧ List.Chain' (fun a b => a.2 < b.1) (pagerWindows 5 4)
    ∧ (∀ win ∈ pagerWindows 5 4, win.1 < 5)) :=
  ⟨by decide, pager_fixed_stride (fun _ => ["a","b","c","d","e"]) 5 4 (by decide)⟩

/-! ## `lock`: the acquisition retry loop

`lock(key, opts)` derives its parameters from the options —
`retries = max(0, opts.retries ?? 5)`, `minDelay = max(5, opts.minDelayMs
?? 20)`, `maxDelay = max(minDelay, opts.maxDelayMs ?? 60)` — generates one
token with `crypto.randomBytes(16)` before the loop, and then runs
`while (attempt < retries)`: one `SET lockKey token PX ttl NX` per
iteration, returning the lock record on `'OK'`, else sleeping
`minDelay + Math.floor(Math.random() * (maxDelay - minDelay + 1))` if
another attempt remains.  Exhaustion returns `null`.

The store's replies are an oracle `ok : Nat → Bool` (whether attempt `i`'s
conditional set succeeded) and the `Math.random` draws appear as
`rand : Nat → Nat` with `rand i ≤ maxDelay - minDelay` (this is the range
of `floor(random * (maxDelay - minDelay + 1))` for `random ∈ [0,1)`). -/

/-- The caller-supplied lock options; every field is optional, like the
TypeScript `Lock` options object. -/
structure LockOpts where
  ttlMs : Option Int := none
  retries : Option Int := none
  minDelayMs : Option Int := none
  maxDelayMs : Option Int := none

/-- `Math.max(0, opts?.retries ?? 5)`. -/
def lockRetries (o : LockOpts) : Int := max 0 (o.retries.getD 5)

/-- `Math.max(5, opts?.minDelayMs ?? 20)`. -/
def lockMinDelay (o : LockOpts) : Int := max 5 (o.minDelayMs.getD 20)

/-- `Math.max(minDelay, opts?.maxDelayMs ?? 60)`. -/
def lockMaxDelay (o : LockOpts) : Int := max (lockMinDelay o) (o.maxDelayMs.getD 60)

/-- The `while (attempt < retries)` loop, with `remaining = retries -
attempt` as the structural measure.  Returns `(successful attempt if any,
number of SET attempts issued, backoff delays waited, token presented by
each attempt)`.  The single pre-loop token is passed in. -/
def lockGo (ok : Nat → Bool) (rand : Nat → Nat) (token : String)
    (minD maxD : Int) : Nat → Nat → Option Nat × Nat × List Int × List String
  | 0, _ => (none, 0, [], [])
  | remaining + 1, attempt =>
      if ok attempt then (some attempt, 1, [], [token])
      else
        match remaining with
        | 0 => (none, 1, [], [token])
        | r + 1 =>
            let res := lockGo ok rand token minD maxD (r + 1) (attempt + 1)
            (res.1, res.2.1 + 1,
              (minD + (rand attempt : Int)) :: res.2.2.1,
              token :: res.2.2.2)

/-- A whole `lock` call: derive the clamped parameters and run the loop
from attempt 0. -/
def lockRun (ok : Nat → Bool) (rand : Nat → Nat) (opts : LockOpts)
    (token : String) : Option Nat × Nat × List Int × List String :=
  lockGo ok rand token (lockMinDelay opts) (lockMaxDelay opts)
    (lockRetries opts).toNat 0

/-- Loop invariants: at most `remaining` attempts happen; every delay lies
in the clamped band `[minD, maxD]`; if every attempt fails, the loop
exhausts exactly `remaining` attempts with one fewer sleeps and yields
`none`. -/
theorem lockGo_spec (ok : Nat → Bool) (rand : Nat → Nat) (token : String)
    (minD maxD : Int) (hband : ∀ i, (rand i : Int) ≤ maxD - minD) :
    ∀ remaining attempt,
      (lockGo ok rand token minD maxD remaining attempt).2.1 ≤ remaining
      ∧ (∀ d ∈ (lockGo ok rand token minD maxD remaining attempt).2.2.1,
          minD ≤ d ∧ d ≤ maxD)
      ∧ ((∀ i, ok i = false) →
          (lockGo ok rand token minD maxD remaining attempt).1 = none
          ∧ (lockGo ok rand token minD maxD remaining attempt).2.1 = remaining
          ∧ (lockGo ok rand token minD maxD remaining attempt).2.2.1.length
              = remaining - 1)
      ∧ (∀ s ∈ (lockGo ok rand token minD maxD remaining attempt).2.2.2,
          s = token) := by
  intro remaining
  induction remaining with
  | zero =>
      intro attempt
      exact ⟨Nat.le_refl 0, fun d hd => absurd hd (List.not_mem_nil d),
        fun _ => ⟨rfl, rfl, rfl⟩, fun s hs => absurd hs (List.not_mem_nil s)⟩
  | succ remaining ih =>
      intro attempt
      match remaining with
      | 0 =>
          by_cases hok : ok attempt = true
          · rw [show lockGo ok rand token minD maxD 1 attempt
                = (some attempt, 1, [], [token]) from by
              simp only [lockGo, hok, if_true]]
            exact ⟨by show 1 ≤ 0 + 1; omega,
              fun d hd => absurd hd (List.not_mem_nil d),
              fun hall => absurd hok (by rw [hall attempt]; exact Bool.false_ne_true),
              fun s hs => by simpa using (List.mem_singleton.mp hs)⟩
          · rw [show lockGo ok rand token minD maxD 1 attempt
                = (none, 1, [], [token]) from by
              simp only [lockGo, eq_false_of_ne_true hok,
                Bool.false_eq_true, if_false]]
            exact ⟨by show 1 ≤ 0 + 1; omega,
              fun d hd => absurd hd (List.not_mem_nil d),
              fun _ => ⟨rfl, rfl, rfl⟩,
              fun s hs => by simpa using (List.mem_singleton.mp hs)⟩
      | r + 1 =>
          by_cases hok : ok attempt = true
          · rw [show lockGo ok rand token minD maxD (r + 1 + 1) attempt
                = (some attempt, 1, [], [token]) from by
              simp only [lockGo, hok, if_true]]
            exact ⟨by show 1 ≤ r + 1 + 1; omega,
              fun d hd => absurd hd (List.not_mem_nil d),
              fun hall => absurd hok (by rw [hall attempt]; exact Bool.false_ne_true),
              fun s hs => by simpa using (List.mem_singleton.mp hs)⟩
          · have hrec := ih (attempt + 1)
            rw [show lockGo ok rand token minD maxD (r + 1 + 1) attempt
                = ((lockGo ok rand token minD maxD (r + 1) (attempt + 1)).1,
                   (lockGo ok rand token minD maxD (r + 1) (attempt + 1)).2.1 + 1,
                   (minD + (rand attempt : Int))
                     :: (lockGo ok rand token minD maxD (r + 1) (attempt + 1)).2.2.1,
                   token
                     :: (lockGo ok rand token minD maxD (r + 1) (attempt + 1)).2.2.2)
              from by
              simp only [lockGo, eq_false_of_ne_true hok,
                Bool.false_eq_true, if_false]]
            refine ⟨?_, ?_, ?_, ?_⟩
            · show (lockGo ok rand token minD maxD (r + 1) (attempt + 1)).2.1 + 1
                ≤ r + 1 + 1
              have := hrec.1
              omega
            · intro d hd
              rcases List.mem_cons.mp hd with hd | hd
              · subst hd
                have := hband attempt
                constructor <;> omega
              · exact hrec.2.1 d hd
            · intro hall
              obtain ⟨hn, hc, hl⟩ := hrec.2.2.1 hall
              refine ⟨hn, by rw [hc], ?_⟩
              show ((minD + (rand attempt : Int)) :: _).length = _
              rw [List.length_cons, hl]
              omega
            · intro s hs
              rcases List.mem_cons.mp hs with hs | hs
              · exact hs
              · exact hrec.2.2.2 s hs

/-- C5 as stated is false on the code: the backoff is clamped, never the
raw configured range.  Configuring `minDelayMs = 1, maxDelayMs = 2` makes
every sleep exactly 5 ms — outside `[1, 2]`. -/
theorem lock_backoff_outside_configured_range_cex :
    (lockRun (fun _ => false) (fun _ => 0)
        { retries := some 2, minDelayMs := some 1, maxDelayMs := some 2 }
        "tok").2.2.1 = [5]
    ∧ ¬ ((5 : Int) ≤ 2) := by
  constructor
  · rfl
  · decide

/-- C5 amended — a `lock` call makes at most `retries` conditional-set
attempts; every wait between consecutive attempts lies in the clamped
band `[max(5, minDelayMs), max(max(5, minDelayMs), maxDelayMs)]` (the
draw is `min + floor(random·(max-min+1))`, uniform over that band); and
exhausting all attempts yields `null` — `retries` attempts, `retries - 1`
sleeps — as a normal value, not an error. -/
theorem lock_retry_bounded_backoff (ok : Nat → Bool) (rand : Nat → Nat)
    (opts : LockOpts) (token : String)
    (hband : ∀ i, (rand i : Int) ≤ lockMaxDelay opts - lockMinDelay opts) :
    (lockRun ok rand opts token).2.1 ≤ (lockRetries opts).toNat
    ∧ (∀ d ∈ (lockRun ok rand opts token).2.2.1,
        lockMinDelay opts ≤ d ∧ d ≤ lockMaxDelay opts)
    ∧ ((∀ i, ok i = false) →
        (lockRun ok rand opts token).1 = none
        ∧ (lockRun ok rand opts token).2.1 = (lockRetries opts).toNat
        ∧ (lockRun ok rand opts token).2.2.1.length
            = (lockRetries opts).toNat - 1) :=
  have h := lockGo_spec ok rand token (lockMinDelay opts) (lockMaxDelay opts)
    hband (lockRetries opts).toNat 0
  ⟨h.1, h.2.1, h.2.2.1⟩

/-- Witness for the amended C5 at the defaults (`retries = 5`, band
`[20, 60]`) under full contention. -/
theorem lock_retry_bounded_backoff_witness :
    (∀ i : Nat, ((fun _ => 7) i : Int) ≤ lockMaxDelay {} - lockMinDelay {})
    ∧ ((lockRun (fun _ => false) (fun _ => 7) {} "tok").2.1
          ≤ (lockRetries {}).toNat
    ∧ (∀ d ∈ (lockRun (fun _ => false) (fun _ => 7) {} "tok").2.2.1,
        lockMinDelay {} ≤ d ∧ d ≤ lockMaxDelay {})
    ∧ ((∀ i : Nat, (fun _ => false) i = false) →
        (lockRun (fun _ => false) (fun _ => 7) {} "tok").1 = none
        ∧ (lockRun (fun _ => false) (fun _ => 7) {} "tok").2.1
            = (lockRetries {}).toNat
        ∧ (lockRun (fun _ => false) (fun _ => 7) {} "tok").2.2.1.length
            = (lockRetries {}).toNat - 1)) :=
  ⟨fun _ => show ((7 : Nat) : Int) ≤ lockMaxDelay {} - lockMinDelay {} by decide,
    lock_retry_bounded_backoff (fun _ => false) (fun _ => 7) {} "tok"
      (fun _ => show ((7 : Nat) : Int) ≤ lockMaxDelay {} - lockMinDelay {}
        by decide)⟩

/-- C6 as stated is false on the code: the token is generated once per
`lock` call, before the loop, so consecutive attempts of one call present
the very same token.  Under contention with `retries = 2`, both attempts
present `tok` — the presented tokens are not pairwise distinct. -/
theorem lock_token_reused_across_attempts_cex :
    (lockRun (fun _ => false) (fun _ => 0) { retries := some 2 }
        "4f3c...").2.2.2 = ["4f3c...", "4f3c..."]
    ∧ ¬ ((lockRun (fun _ => false) (fun _ => 0) { retries := some 2 }
        "4f3c...").2.2.2).Nodup := by
  constructor
  · rfl
  · decide

/-- Every token a loop run presents is the call's single pre-loop token. -/
theorem lockGo_tokens (ok : Nat → Bool) (rand : Nat → Nat) (token : String)
    (minD maxD : Int) :
    ∀ remaining attempt,
      ∀ s ∈ (lockGo ok rand token minD maxD remaining attempt).2.2.2,
        s = token := by
  intro remaining
  induction remaining with
  | zero =>
      intro attempt s hs
      exact absurd hs (List.not_mem_nil s)
  | succ remaining ih =>
      intro attempt s hs
      match remaining with
      | 0 =>
          by_cases hok : ok attempt = true
          · rw [show lockGo ok rand token minD maxD 1 attempt
                = (some attempt, 1, [], [token]) from by
              simp only [lockGo, hok, if_true]] at hs
            simpa using (List.mem_singleton.mp hs)
          · rw [show lockGo ok rand token minD maxD 1 attempt
                = (none, 1, [], [token]) from by
              simp only [lockGo, eq_false_of_ne_true hok,
                Bool.false_eq_true, if_false]] at hs
            simpa using (List.mem_singleton.mp hs)
      | r + 1 =>
          by_cases hok : ok attempt = true
          · rw [show lockGo ok rand token minD maxD (r + 1 + 1) attempt
                = (some attempt, 1, [], [token]) from by
              simp only [lockGo, hok, if_true]] at hs
            simpa using (List.mem_singleton.mp hs)
          · rw [show lockGo ok rand token minD maxD (r + 1 + 1) attempt
                = ((lockGo ok rand token minD maxD (r + 1) (attempt + 1)).1,
                   (lockGo ok rand token minD maxD (r + 1) (attempt + 1)).2.1 + 1,
                   (minD + (rand attempt : Int))
                     :: (lockGo ok rand token minD maxD (r + 1) (attempt + 1)).2.2.1,
                   token
                     :: (lockGo ok rand token minD maxD (r + 1) (attempt + 1)).2.2.2)
              from by
              simp only [lockGo, eq_false_of_ne_true hok,
                Bool.false_eq_true, if_false]] at hs
            rcases List.mem_cons.mp hs with hs | hs
            · exact hs
            · exact ih (attempt + 1) s hs

/-- C6 amended — one fresh token is generated per `lock` call and is the
value presented by every conditional-set attempt of that call; attempts
of different calls present different tokens exactly when the generated
tokens differ (the generator draws 128 fresh random bits per call). -/
theorem lock_one_token_per_call (ok ok' : Nat → Bool) (rand rand' : Nat → Nat)
    (opts opts' : LockOpts) (token token' : String)
    (hne : token ≠ token') :
    (∀ s ∈ (lockRun ok rand opts token).2.2.2, s = token)
    ∧ (∀ s ∈ (lockRun ok rand opts token).2.2.2,
        ∀ s' ∈ (lockRun ok' rand' opts' token').2.2.2, s ≠ s') := by
  have h1 : ∀ s ∈ (lockRun ok rand opts token).2.2.2, s = token :=
    lockGo_tokens ok rand token (lockMinDelay opts) (lockMaxDelay opts)
      (lockRetries opts).toNat 0
  have h2 : ∀ s ∈ (lockRun ok' rand' opts' token').2.2.2, s = token' :=
    lockGo_tokens ok' rand' token' (lockMinDelay opts') (lockMaxDelay opts')
      (lockRetries opts').toNat 0
  refine ⟨h1, ?_⟩
  intro s hs s' hs'
  rw [h1 s hs, h2 s' hs']
  exact hne

/-- Witness for the amended C6: two contended calls with distinct tokens
never present a common token; within each call every attempt presents the
call's token. -/
theorem lock_one_token_per_call_witness :
    ("t1" ≠ "t2")
    ∧ ((∀ s ∈ (lockRun (fun _ => false) (fun _ => 0)
          { retries := some 2 } "t1").2.2.2, s = "t1")
    ∧ (∀ s ∈ (lockRun (fun _ => false) (fun _ => 0)
          { retries := some 2 } "t1").2.2.2,
        ∀ s' ∈ (lockRun (fun _ => false) (fun _ => 0)
          { retries := some 3 } "t2").2.2.2, s ≠ s')) :=
  ⟨by decide,
    lock_one_token_per_call (fun _ => false) (fun _ => false)
      (fun _ => 0) (fun _ => 0)
      { retries := some 2 } { retries := some 3 } "t1" "t2" (by decide)⟩

/-! ## The payload codec: `toPayload` / `fromPayload`

`Jsonish` (file `types.ts`) is `string | number | boolean | null`, arrays
of `Jsonish`, and plain objects with string keys.  `toPayload` JSON-encodes
arrays and objects (`jsonEncode` = `JSON.stringify`) and stringifies
everything else with `String(value ?? '')`; `fromPayload` tries
`jsonDecode` (= `JSON.parse`) and keeps the parse when it is a number,
boolean, string, array or object, else falls back to boolean-looking
strings and finally the raw string.

The codec of the external `full-utils` helpers is modelled concretely:
`JSON.stringify` for this value grammar (strings escaped with `\"`, `\\`,
`\n`, `\t`, `\r`, `\b`, `\f` and `\u00XX` for other control characters)
and a recursive-descent `JSON.parse` for the same grammar.  Numbers are
modelled as integers (no fraction/exponent forms, no leading-zero
rejection), and insignificant whitespace is not modelled; no claim
exercises either corner. -/

mutual
/-- The `Jsonish` payload values: JSON primitives (numbers as integers),
arrays, and plain objects in key order. -/
inductive Jsonish where
  | jnull : Jsonish
  | jbool : Bool → Jsonish
  | jnum : Int → Jsonish
  | jstr : String → Jsonish
  | jarr : JArr → Jsonish
  | jobj : JObj → Jsonish
deriving DecidableEq

/-- A JSON array of `Jsonish` values. -/
inductive JArr where
  | anil : JArr
  | acons : Jsonish → JArr → JArr
deriving DecidableEq

/-- A plain JSON object: string keys with `Jsonish` values, in order. -/
inductive JObj where
  | onil : JObj
  | ocons : String → Jsonish → JObj → JObj
deriving DecidableEq
end

/-- Is the value an array? (`isArr` of `full-utils`.) -/
def isArrJ : Jsonish → Bool
  | .jarr _ => true
  | _ => false

/-- Is the value a plain object? (`isObj` of `full-utils`.) -/
def isObjJ : Jsonish → Bool
  | .jobj _ => true
  | _ => false

/-- The decimal digit character for `d < 10`. -/
def digCh (d : Nat) : Char := Char.ofNat ('0'.toNat + d)

/-- A hexadecimal digit character for `d < 16` (lowercase, as
`JSON.stringify` emits in `\u00xx`). -/
def hexDig (d : Nat) : Char :=
  if d < 10 then Char.ofNat ('0'.toNat + d) else Char.ofNat ('a'.toNat + (d - 10))

/-- Decimal digits of `n`, most significant first; the fuel argument only
feeds the recursion (`n` itself is always enough fuel). -/
def natCharsGo : Nat → Nat → List Char
  | 0, _ => []
  | fuel + 1, n => if n < 10 then [digCh n] else natCharsGo fuel (n / 10) ++ [digCh (n % 10)]

/-- Decimal digits of `n`, as `String(n)` renders a non-negative number. -/
def natChars (n : Nat) : List Char := natCharsGo (n + 1) n

/-- `String(n)` / `JSON.stringify(n)` for an integer: optional minus sign
then decimal digits. -/
def intChars (n : Int) : List Char :=
  if n < 0 then '-' :: natChars n.natAbs else natChars n.natAbs

/-- One string character, JSON-escaped (`JSON.stringify` string rules). -/
def escChar (c : Char) : List Char :=
  if c = '"' then ['\\', '"']
  else if c = '\\' then ['\\', '\\']
  else if c = '\n' then ['\\', 'n']
  else if c = '\t' then ['\\', 't']
  else if c = '\r' then ['\\', 'r']
  else if c.toNat = 8 then ['\\', 'b']
  else if c.toNat = 12 then ['\\', 'f']
  else if c.toNat < 32 then
    ['\\', 'u', '0', '0', hexDig (c.toNat / 16), hexDig (c.toNat % 16)]
  else [c]

/-- A whole string body, escaped. -/
def escStr (cs : List Char) : List Char := cs.flatMap escChar

/-- A JSON string literal: quote, escaped body, quote. -/
def strChars (s : String) : List Char := '"' :: (escStr s.toList ++ ['"'])

mutual
/-- `JSON.stringify` of a `Jsonish` value, as characters. -/
def encodeChars : Jsonish → List Char
  | .jnull => ['n', 'u', 'l', 'l']
  | .jbool true => ['t', 'r', 'u', 'e']
  | .jbool false => ['f', 'a', 'l', 's', 'e']
  | .jnum n => intChars n
  | .jstr s => strChars s
  | .jarr a => '[' :: (encodeArr a ++ [']'])
  | .jobj o => '{' :: (encodeObj o ++ ['}'])

/-- Array elements, comma-separated. -/
def encodeArr : JArr → List Char
  | .anil => []
  | .acons v .anil => encodeChars v
  | .acons v (.acons w t) =>
      encodeChars v ++ ',' :: encodeArr (.acons w t)

/-- Object members `"key":value`, comma-separated. -/
def encodeObj : JObj → List Char
  | .onil => []
  | .ocons k v .onil => strChars k ++ ':' :: encodeChars v
  | .ocons k v (.ocons k2 v2 t) =>
      strChars k ++ ':' :: (encodeChars v ++ ',' :: encodeObj (.ocons k2 v2 t))
end

/-- `jsonEncode` of `full-utils`: `JSON.stringify`, producing a string. -/
def jsonEncode (v : Jsonish) : String := ⟨encodeChars v⟩

/-- Is `c` a decimal digit? -/
def isDig (c : Char) : Bool := '0' ≤ c && c ≤ '9'

/-- Numeric value of a digit character. -/
def digVal (c : Char) : Nat := c.toNat - '0'.toNat

/-- Longest leading digit run of the input, and the remainder. -/
def grabDigits : List Char → List Char × List Char
  | [] => ([], [])
  | c :: cs =>
      if isDig c then
        let g := grabDigits cs
        (c :: g.1, g.2)
      else ([], c :: cs)

/-- Value of a digit run, most significant first. -/
def digitsVal (ds : List Char) : Nat :=
  ds.foldl (fun a c => a * 10 + digVal c) 0

/-- Parse an optionally-signed decimal integer. -/
def parseIntCs (cs : List Char) : Option (Int × List Char) :=
  match cs with
  | [] => none
  | c :: r =>
      if c = '-' then
        let g := grabDigits r
        if g.1 = [] then none else some (-(digitsVal g.1 : Int), g.2)
      else
        let g := grabDigits (c :: r)
        if g.1 = [] then none else some ((digitsVal g.1 : Int), g.2)

/-- Value of an escape letter (`\n`, `\t`, …) during string parsing. -/
def unescChar (c : Char) : Option Char :=
  if c = '"' then some '"'
  else if c = '\\' then some '\\'
  else if c = '/' then some '/'
  else if c = 'n' then some '\n'
  else if c = 't' then some '\t'
  else if c = 'r' then some '\r'
  else if c = 'b' then some (Char.ofNat 8)
  else if c = 'f' then some (Char.ofNat 12)
  else none

/-- Numeric value of a hexadecimal digit character. -/
def hexVal? (c : Char) : Option Nat :=
  if '0' ≤ c ∧ c ≤ '9' then some (c.toNat - '0'.toNat)
  else if 'a' ≤ c ∧ c ≤ 'f' then some (c.toNat - 'a'.toNat + 10)
  else if 'A' ≤ c ∧ c ≤ 'F' then some (c.toNat - 'A'.toNat + 10)
  else none

/-- Parse a string body after the opening quote, accumulating unescaped
characters in reverse. -/
def parseStringBody (acc : List Char) : List Char → Option (String × List Char)
  | [] => none
  | c :: rest =>
      if c = '"' then some (⟨acc.reverse⟩, rest)
      else if c = '\\' then
        match rest with
        | 'u' :: a :: b :: c2 :: d :: r2 =>
            match hexVal? a, hexVal? b, hexVal? c2, hexVal? d with
            | some va, some vb, some vc, some vd =>
                parseStringBody
                  (Char.ofNat (((va * 16 + vb) * 16 + vc) * 16 + vd) :: acc) r2
            | _, _, _, _ => none
        | e :: r2 =>
            match unescChar e with
            | some ch => parseStringBody (ch :: acc) r2
            | none => none
        | [] => none
      else parseStringBody (c :: acc) rest

mutual
/-- Recursive-descent `JSON.parse` for the modelled grammar; the fuel
bounds the nesting of value parses. -/
def parseVal : Nat → List Char → Option (Jsonish × List Char)
  | 0, _ => none
  | fuel + 1, cs =>
      match cs with
      | [] => none
      | c :: r =>
          if c = 'n' then
            match r with
            | 'u' :: 'l' :: 'l' :: r2 => some (.jnull, r2)
            | _ => none
          else if c = 't' then
            match r with
            | 'r' :: 'u' :: 'e' :: r2 => some (.jbool true, r2)
            | _ => none
          else if c = 'f' then
            match r with
            | 'a' :: 'l' :: 's' :: 'e' :: r2 => some (.jbool false, r2)
            | _ => none
          else if c = '"' then
            match parseStringBody [] r with
            | some (s, r2) => some (.jstr s, r2)
            | none => none
          else if c = '[' then
            match r with
            | [] => none
            | c2 :: r2 =>
                if c2 = ']' then some (.jarr .anil, r2)
                else
                  match parseItems fuel (c2 :: r2) with
                  | some (a, r3) => some (.jarr a, r3)
                  | none => none
          else if c = '{' then
            match r with
            | [] => none
            | c2 :: r2 =>
                if c2 = '}' then some (.jobj .onil, r2)
                else
                  match parseFields fuel (c2 :: r2) with
                  | some (o, r3) => some (.jobj o, r3)
                  | none => none
          else if c = '-' ∨ isDig c then
            match parseIntCs (c :: r) with
            | some (n, r2) => some (.jnum n, r2)
            | none => none
          else none

/-- One or more comma-separated array elements, up to the closing `]`. -/
def parseItems : Nat → List Char → Option (JArr × List Char)
  | 0, _ => none
  | fuel + 1, cs =>
      match parseVal fuel cs with
      | none => none
      | some (v, r) =>
          match r with
          | [] => none
          | c :: r2 =>
              if c = ']' then some (.acons v .anil, r2)
              else if c = ',' then
                match parseItems fuel r2 with
                | some (a, r3) => some (.acons v a, r3)
                | none => none
              else none

/-- One or more comma-separated `"key":value` members, up to `}`. -/
def parseFields : Nat → List Char → Option (JObj × List Char)
  | 0, _ => none
  | fuel + 1, cs =>
      match cs with
      | [] => none
      | c :: r =>
          if c = '"' then
            match parseStringBody [] r with
            | none => none
            | some (k, r1) =>
                match r1 with
                | [] => none
                | c1 :: r2 =>
                    if c1 = ':' then
                      match parseVal fuel r2 with
                      | none => none
                      | some (v, r3) =>
                          match r3 with
                          | [] => none
                          | c3 :: r4 =>
                              if c3 = '}' then some (.ocons k v .onil, r4)
                              else if c3 = ',' then
                                match parseFields fuel r4 with
                                | some (o, r5) => some (.ocons k v o, r5)
                                | none => none
                              else none
                    else none
          else none
end

/-- `jsonDecode` of `full-utils`: `JSON.parse`, `none` on a parse error
(including trailing characters). -/
def jsonDecode (s : String) : Option Jsonish :=
  match parseVal (s.toList.length + 1) s.toList with
  | some (v, []) => some v
  | _ => none

/-- Lowercasing, for the boolean-looking-string fallback. -/
def lowerStr (s : String) : String := ⟨s.toList.map Char.toLower⟩

/-- `isStrBool` of `full-utils`: does the string spell a boolean? -/
def isStrBool (s : String) : Bool := lowerStr s = "true" ∨ lowerStr s = "false"

/-- `boolNormalize` of `full-utils`: the boolean a boolean-looking string
spells. -/
def boolNormalize (s : String) : Bool := lowerStr s = "true"

/-- `toPayload`: arrays and objects are JSON-encoded; everything else goes
through `String(value ?? '')`. -/
def toPayload : Jsonish → String
  | .jarr a => jsonEncode (.jarr a)
  | .jobj o => jsonEncode (.jobj o)
  | .jstr s => s
  | .jnum n => ⟨intChars n⟩
  | .jbool true => "true"
  | .jbool false => "false"
  | .jnull => ""

/-- `fromPayload`: `null` input stays `null`; the empty string stays `''`;
a successful JSON parse to a number, boolean, string, array or object is
returned; otherwise boolean-looking strings normalize and anything else
is the raw string.  (A parse producing JSON `null` fails the
`isNum/isBool/isStr/isArr/isObj` checks and falls through.) -/
def fromPayload : Option String → Jsonish
  | none => .jnull
  | some s =>
      if s = "" then .jstr ""
      else
        match jsonDecode s with
        | some (.jnum n) => .jnum n
        | some (.jbool b) => .jbool b
        | some (.jstr t) => .jstr t
        | some (.jarr a) => .jarr a
        | some (.jobj o) => .jobj o
        | some .jnull => if isStrBool s then .jbool (boolNormalize s) else .jstr s
        | none => if isStrBool s then .jbool (boolNormalize s) else .jstr s

/-- A remainder that cannot extend a digit run: empty or headed by a
non-digit.  Every JSON delimiter qualifies. -/
def noDigitHead : List Char → Bool
  | [] => true
  | c :: _ => !(isDig c)

/-- The digit character of `d < 10` is a digit and carries `d`. -/
theorem digCh_spec (d : Nat) (h : d < 10) :
    isDig (digCh d) = true ∧ digVal (digCh d) = d := by
  interval_cases d <;> exact ⟨by decide, by decide⟩

/-- With enough fuel, the digit expansion is nonempty and all digits. -/
theorem natCharsGo_digits :
    ∀ fuel n, n < fuel →
      natCharsGo fuel n ≠ [] ∧ ∀ c ∈ natCharsGo fuel n, isDig c = true := by
  intro fuel
  induction fuel with
  | zero => intro n h; omega
  | succ fuel ih =>
      intro n h
      by_cases h10 : n < 10
      · rw [show natCharsGo (fuel + 1) n = [digCh n] from by
          simp only [natCharsGo, if_pos h10]]
        exact ⟨List.cons_ne_nil _ _, fun c hc => by
          rw [List.mem_singleton.mp hc]; exact (digCh_spec n h10).1⟩
      · rw [show natCharsGo (fuel + 1) n
            = natCharsGo fuel (n / 10) ++ [digCh (n % 10)] from by
          simp only [natCharsGo, if_neg h10]]
        have hrec := ih (n / 10) (by omega)
        refine ⟨by simp, fun c hc => ?_⟩
        rcases List.mem_append.mp hc with hc | hc
        · exact hrec.2 c hc
        · rw [List.mem_singleton.mp hc]
          exact (digCh_spec (n % 10) (Nat.mod_lt n (by omega))).1

/-- Appending one digit multiplies the run's value by ten and adds it. -/
theorem digitsVal_append_digit (xs : List Char) (c : Char) :
    digitsVal (xs ++ [c]) = 10 * digitsVal xs + digVal c := by
  unfold digitsVal
  rw [List.foldl_append]
  simp only [List.foldl_cons, List.foldl_nil]
  omega

/-- The digit expansion evaluates back to the number. -/
theorem digitsVal_natCharsGo :
    ∀ fuel n, n < fuel → digitsVal (natCharsGo fuel n) = n := by
  intro fuel
  induction fuel with
  | zero => intro n h; omega
  | succ fuel ih =>
      intro n h
      by_cases h10 : n < 10
      · rw [show natCharsGo (fuel + 1) n = [digCh n] from by
          simp only [natCharsGo, if_pos h10]]
        show digitsVal ([] ++ [digCh n]) = n
        rw [digitsVal_append_digit]
        have := (digCh_spec n h10).2
        unfold digitsVal
        simp only [List.foldl_nil]
        omega
      · rw [show natCharsGo (fuel + 1) n
            = natCharsGo fuel (n / 10) ++ [digCh (n % 10)] from by
          simp only [natCharsGo, if_neg h10]]
        rw [digitsVal_append_digit, ih (n / 10) (by omega),
          (digCh_spec (n % 10) (Nat.mod_lt n (by omega))).2]
        omega

/-- A blocked remainder stops the digit grabber immediately. -/
theorem grabDigits_stop (rest : List Char) (h : noDigitHead rest = true) :
    grabDigits rest = ([], rest) := by
  match rest with
  | [] => rfl
  | c :: t =>
      have hc : isDig c = false := by
        simpa [noDigitHead] using h
      simp only [grabDigits, hc, Bool.false_eq_true, if_false]

/-- The digit grabber consumes exactly a digit run before a blocked
remainder. -/
theorem grabDigits_run (ds : List Char) (hds : ∀ c ∈ ds, isDig c = true)
    (rest : List Char) (hrest : noDigitHead rest = true) :
    grabDigits (ds ++ rest) = (ds, rest) := by
  induction ds with
  | nil => simpa using grabDigits_stop rest hrest
  | cons c t ih =>
      have hc : isDig c = true := hds c (List.mem_cons_self c t)
      have ht := ih (fun x hx => hds x (List.mem_cons_of_mem c hx))
      show grabDigits (c :: (t ++ rest)) = (c :: t, rest)
      simp only [grabDigits, hc, if_true, ht]

/-- A digit is none of the syntactic lead characters of other JSON
productions, nor a closing bracket, sign, or separator. -/
theorem isDig_not_special (c : Char) (h : isDig c = true) :
    c ≠ 'n' ∧ c ≠ 't' ∧ c ≠ 'f' ∧ c ≠ '"' ∧ c ≠ '[' ∧ c ≠ '{'
    ∧ c ≠ '-' ∧ c ≠ ']' ∧ c ≠ '}' ∧ c ≠ ',' ∧ c ≠ ':' := by
  refine ⟨?_, ?_, ?_, ?_, ?_, ?_, ?_, ?_, ?_, ?_, ?_⟩ <;>
    (intro he; subst he; exact absurd h (by decide))

/-- The integer codec round-trip: parsing a rendered integer recovers it
whenever the remainder cannot extend the digit run. -/
theorem parseIntCs_enc (n : Int) (rest : List Char)
    (hrest : noDigitHead rest = true) :
    parseIntCs (intChars n ++ rest) = some (n, rest) := by
  have habs1 : natChars n.natAbs ≠ [] :=
    (natCharsGo_digits (n.natAbs + 1) n.natAbs (by omega)).1
  have habs2 : ∀ c ∈ natChars n.natAbs, isDig c = true :=
    (natCharsGo_digits (n.natAbs + 1) n.natAbs (by omega)).2
  have hval : digitsVal (natChars n.natAbs) = n.natAbs :=
    digitsVal_natCharsGo (n.natAbs + 1) n.natAbs (by omega)
  by_cases hneg : n < 0
  · rw [show intChars n ++ rest
        = '-' :: (natChars n.natAbs ++ rest) from by
      simp only [intChars, if_pos hneg, List.cons_append]]
    have hgrab := grabDigits_run _ habs2 rest hrest
    show parseIntCs ('-' :: (natChars n.natAbs ++ rest)) = some (n, rest)
    simp only [parseIntCs, hgrab, if_true]
    rw [if_neg habs1, hval]
    have he : -((n.natAbs : Int)) = n := by omega
    rw [he]
  · obtain ⟨c0, t0, h0⟩ : ∃ c0 t0, natChars n.natAbs = c0 :: t0 := by
      match hm : natChars n.natAbs with
      | [] => exact absurd hm habs1
      | c0 :: t0 => exact ⟨c0, t0, rfl⟩
    have hc0 : isDig c0 = true :=
      habs2 c0 (by rw [h0]; exact List.mem_cons_self c0 t0)
    rw [show intChars n ++ rest = c0 :: (t0 ++ rest) from by
      simp only [intChars, if_neg hneg, h0, List.cons_append]]
    have hgrab : grabDigits (c0 :: (t0 ++ rest)) = (c0 :: t0, rest) := by
      have hg := grabDigits_run (natChars n.natAbs) habs2 rest hrest
      rw [h0, List.cons_append] at hg
      exact hg
    show parseIntCs (c0 :: (t0 ++ rest)) = some (n, rest)
    simp only [parseIntCs, hgrab]
    rw [if_neg (isDig_not_special c0 hc0).2.2.2.2.2.2.1,
      if_neg (List.cons_ne_nil c0 t0)]
    have hdv : digitsVal (c0 :: t0) = n.natAbs := by rw [← h0]; exact hval
    rw [hdv]
    have he : ((n.natAbs : Int)) = n := by omega
    rw [he]

/-- The hex digit of `d < 16` carries exactly `d`. -/
theorem hexVal_hexDig (d : Nat) (h : d < 16) : hexVal? (hexDig d) = some d := by
  interval_cases d <;> decide

/-- Reduction of the string parser on a `\uXXXX` escape with valid hex
digits. -/
theorem parseStringBody_u (acc : List Char) (a b c2 d : Char) (r2 : List Char)
    (va vb vc vd : Nat)
    (ha : hexVal? a = some va) (hb : hexVal? b = some vb)
    (hc : hexVal? c2 = some vc) (hd : hexVal? d = some vd) :
    parseStringBody acc ('\\' :: 'u' :: a :: b :: c2 :: d :: r2)
      = parseStringBody
          (Char.ofNat (((va * 16 + vb) * 16 + vc) * 16 + vd) :: acc) r2 := by
  simp only [parseStringBody, ha, hb, hc, hd,
    if_neg (show ('\\' : Char) ≠ '"' from by decide), if_true]

/-- Consuming one escaped character undoes its escaping. -/
theorem parseStringBody_escChar (c : Char) (acc rest : List Char) :
    parseStringBody acc (escChar c ++ rest) = parseStringBody (c :: acc) rest := by
  by_cases h1 : c = '"'
  · subst h1; rfl
  by_cases h2 : c = '\\'
  · subst h2; rfl
  by_cases h3 : c = '\n'
  · subst h3; rfl
  by_cases h4 : c = '\t'
  · subst h4; rfl
  by_cases h5 : c = '\r'
  · subst h5; rfl
  by_cases h6 : c.toNat = 8
  · have hc : c = Char.ofNat 8 := by
      rw [← h6, Char.ofNat_toNat]
    rw [show escChar c = ['\\', 'b'] from by
      simp only [escChar, if_neg h1, if_neg h2, if_neg h3, if_neg h4,
        if_neg h5, if_pos h6]]
    rw [hc]
    rfl
  by_cases h7 : c.toNat = 12
  · have hc : c = Char.ofNat 12 := by
      rw [← h7, Char.ofNat_toNat]
    rw [show escChar c = ['\\', 'f'] from by
      simp only [escChar, if_neg h1, if_neg h2, if_neg h3, if_neg h4,
        if_neg h5, if_neg h6, if_pos h7]]
    rw [hc]
    rfl
  by_cases h8 : c.toNat < 32
  · rw [show escChar c
        = ['\\', 'u', '0', '0', hexDig (c.toNat / 16), hexDig (c.toNat % 16)]
      from by
      simp only [escChar, if_neg h1, if_neg h2, if_neg h3, if_neg h4,
        if_neg h5, if_neg h6, if_neg h7, if_pos h8]]
    show parseStringBody acc
      ('\\' :: 'u' :: '0' :: '0'
        :: hexDig (c.toNat / 16) :: hexDig (c.toNat % 16) :: rest)
      = parseStringBody (c :: acc) rest
    have hhi := hexVal_hexDig (c.toNat / 16) (by omega)
    have hlo := hexVal_hexDig (c.toNat % 16) (by omega)
    rw [parseStringBody_u acc '0' '0' (hexDig (c.toNat / 16))
      (hexDig (c.toNat % 16)) rest 0 0 (c.toNat / 16) (c.toNat % 16)
      (by decide) (by decide) hhi hlo]
    rw [show ((0 * 16 + 0) * 16 + c.toNat / 16) * 16 + c.toNat % 16
        = c.toNat from by omega, Char.ofNat_toNat]
  · rw [show escChar c = [c] from by
      simp only [escChar, if_neg h1, if_neg h2, if_neg h3, if_neg h4,
        if_neg h5, if_neg h6, if_neg h7, if_neg h8]]
    show parseStringBody acc (c :: rest) = parseStringBody (c :: acc) rest
    conv_lhs => rw [parseStringBody.eq_def]
    simp only [h1, h2, if_false]

/-- Parsing an escaped body stops exactly at the closing quote, returning
the accumulated prefix plus the body. -/
theorem parseStringBody_escStr (cs : List Char) :
    ∀ acc rest,
      parseStringBody acc (escStr cs ++ '"' :: rest)
        = some (⟨acc.reverse ++ cs⟩, rest) := by
  induction cs with
  | nil =>
      intro acc rest
      show parseStringBody acc ('"' :: rest) = _
      rw [show parseStringBody acc ('"' :: rest)
          = some (⟨acc.reverse⟩, rest) from by
        conv_lhs => rw [parseStringBody.eq_def]
        simp]
      rw [List.append_nil]
  | cons c cs ih =>
      intro acc rest
      rw [show escStr (c :: cs) = escChar c ++ escStr cs from
          List.flatMap_cons .., List.append_assoc,
        parseStringBody_escChar c acc (escStr cs ++ '"' :: rest),
        ih (c :: acc) rest]
      rw [show (c :: acc).reverse = acc.reverse ++ [c] from
        List.reverse_cons c acc, List.append_assoc]
      rfl

/-- The string-literal round-trip: a rendered string body parses back to
the string itself. -/
theorem parseStringBody_strChars (s : String) (rest : List Char) :
    parseStringBody [] (escStr s.toList ++ '"' :: rest) = some (s, rest) := by
  rw [parseStringBody_escStr s.toList [] rest]
  show some ((⟨s.toList⟩ : String), rest) = some (s, rest)
  rw [show (⟨s.toList⟩ : String) = s from by cases s; rfl]

mutual
/-- Fuel measure for a value parse. -/
def sizeJ : Jsonish → Nat
  | .jnull => 1
  | .jbool _ => 1
  | .jnum _ => 1
  | .jstr _ => 1
  | .jarr a => sizeA a + 1
  | .jobj o => sizeO o + 1

/-- Fuel measure for an element-list parse. -/
def sizeA : JArr → Nat
  | .anil => 0
  | .acons v t => sizeJ v + sizeA t + 1

/-- Fuel measure for a member-list parse. -/
def sizeO : JObj → Nat
  | .onil => 0
  | .ocons _ v t => sizeJ v + sizeO t + 1
end

mutual
/-- The rendering is at least as long as the fuel measure. -/
theorem sizeJ_le_len : ∀ v : Jsonish, sizeJ v ≤ (encodeChars v).length
  | .jnull => by simp [sizeJ, encodeChars]
  | .jbool true => by simp [sizeJ, encodeChars]
  | .jbool false => by simp [sizeJ, encodeChars]
  | .jnum n => by
      have h := (natCharsGo_digits (n.natAbs + 1) n.natAbs (by omega)).1
      show sizeJ (.jnum n) ≤ (intChars n).length
      rw [sizeJ]
      unfold intChars
      by_cases hneg : n < 0
      · rw [if_pos hneg]
        simp
      · rw [if_neg hneg]
        have : natChars n.natAbs ≠ [] := h
        have hlen : 0 < (natChars n.natAbs).length := List.length_pos.mpr this
        omega
  | .jstr s => by
      show sizeJ (.jstr s) ≤ (strChars s).length
      rw [sizeJ, strChars]
      simp
  | .jarr a => by
      show sizeA a + 1 ≤ ('[' :: (encodeArr a ++ [']'])).length
      have := sizeA_le_len a
      simp only [List.length_cons, List.length_append, List.length_singleton]
      omega
  | .jobj o => by
      show sizeO o + 1 ≤ ('{' :: (encodeObj o ++ ['}'])).length
      have := sizeO_le_len o
      simp only [List.length_cons, List.length_append, List.length_singleton]
      omega

/-- The element rendering is at least the measure, less the brackets. -/
theorem sizeA_le_len : ∀ a : JArr, sizeA a ≤ (encodeArr a).length + 1
  | .anil => by simp [sizeA, encodeArr]
  | .acons v .anil => by
      have := sizeJ_le_len v
      show sizeJ v + 0 + 1 ≤ (encodeChars v).length + 1
      omega
  | .acons v (.acons w t) => by
      have h1 := sizeJ_le_len v
      have h2 := sizeA_le_len (.acons w t)
      show sizeJ v + sizeA (.acons w t) + 1
          ≤ (encodeChars v ++ ',' :: encodeArr (.acons w t)).length + 1
      simp only [List.length_append, List.length_cons]
      omega

/-- The member rendering is at least the measure, less the braces. -/
theorem sizeO_le_len : ∀ o : JObj, sizeO o ≤ (encodeObj o).length + 1
  | .onil => by simp [sizeO, encodeObj]
  | .ocons k v .onil => by
      have := sizeJ_le_len v
      show sizeJ v + 0 + 1 ≤ (strChars k ++ ':' :: encodeChars v).length + 1
      simp only [List.length_append, List.length_cons]
      omega
  | .ocons k v (.ocons k2 v2 t) => by
      have h1 := sizeJ_le_len v
      have h2 := sizeO_le_len (.ocons k2 v2 t)
      show sizeJ v + sizeO (.ocons k2 v2 t) + 1
          ≤ (strChars k
              ++ ':' :: (encodeChars v ++ ',' :: encodeObj (.ocons k2 v2 t))).length
            + 1
      simp only [List.length_append, List.length_cons]
      omega
end

/-- Every rendered value starts with a character that closes no array or
object and, when it is not a digit run, announces its production. -/
theorem encodeChars_head (v : Jsonish) :
    ∃ c t, encodeChars v = c :: t ∧ c ≠ ']' ∧ c ≠ '}' := by
  cases v with
  | jnull => exact ⟨'n', _, rfl, by decide, by decide⟩
  | jbool b =>
      cases b with
      | true => exact ⟨'t', _, rfl, by decide, by decide⟩
      | false => exact ⟨'f', _, rfl, by decide, by decide⟩
  | jstr s => exact ⟨'"', _, rfl, by decide, by decide⟩
  | jarr a => exact ⟨'[', _, rfl, by decide, by decide⟩
  | jobj o => exact ⟨'{', _, rfl, by decide, by decide⟩
  | jnum n =>
      by_cases hneg : n < 0
      · refine ⟨'-', natChars n.natAbs, ?_, by decide, by decide⟩
        show intChars n = _
        rw [intChars, if_pos hneg]
      · have habs1 : natChars n.natAbs ≠ [] :=
          (natCharsGo_digits (n.natAbs + 1) n.natAbs (by omega)).1
        have habs2 : ∀ c ∈ natChars n.natAbs, isDig c = true :=
          (natCharsGo_digits (n.natAbs + 1) n.natAbs (by omega)).2
        obtain ⟨c0, t0, h0⟩ : ∃ c0 t0, natChars n.natAbs = c0 :: t0 := by
          match hm : natChars n.natAbs with
          | [] => exact absurd hm habs1
          | c0 :: t0 => exact ⟨c0, t0, rfl⟩
        have hc0 : isDig c0 = true :=
          habs2 c0 (by rw [h0]; exact List.mem_cons_self c0 t0)
        have hsp := isDig_not_special c0 hc0
        refine ⟨c0, t0, ?_, hsp.2.2.2.2.2.2.2.1, hsp.2.2.2.2.2.2.2.2.1⟩
        show intChars n = _
        rw [intChars, if_neg hneg, h0]

/-- `sizeJ` is positive. -/
theorem sizeJ_pos : ∀ v : Jsonish, 1 ≤ sizeJ v
  | .jnull => le_refl 1
  | .jbool _ => le_refl 1
  | .jnum _ => le_refl 1
  | .jstr _ => le_refl 1
  | .jarr a => by rw [sizeJ]; omega
  | .jobj o => by rw [sizeJ]; omega

/-- The value parser on an input headed by a sign or digit reduces to the
integer parser. -/
theorem parseVal_numlike (f : Nat) (c : Char) (t : List Char)
    (hc : c = '-' ∨ isDig c = true) :
    parseVal (f + 1) (c :: t)
      = (match parseIntCs (c :: t) with
         | some (n, r2) => some (.jnum n, r2)
         | none => none) := by
  have hne : c ≠ 'n' ∧ c ≠ 't' ∧ c ≠ 'f' ∧ c ≠ '"' ∧ c ≠ '[' ∧ c ≠ '{' := by
    rcases hc with hc | hc
    · subst hc
      exact ⟨by decide, by decide, by decide, by decide, by decide, by decide⟩
    · have h := isDig_not_special c hc
      exact ⟨h.1, h.2.1, h.2.2.1, h.2.2.2.1, h.2.2.2.2.1, h.2.2.2.2.2.1⟩
  simp only [parseVal]
  simp only [hne.1, hne.2.1, hne.2.2.1, hne.2.2.2.1, hne.2.2.2.2.1,
    hne.2.2.2.2.2, if_false, if_pos hc]

/-- The value parser on `[` followed by anything but `]` reduces to the
element-list parser. -/
theorem parseVal_arr_step (f : Nat) (c2 : Char) (t2 : List Char)
    (hne : c2 ≠ ']') :
    parseVal (f + 1) ('[' :: c2 :: t2)
      = (match parseItems f (c2 :: t2) with
         | some (a, r3) => some (.jarr a, r3)
         | none => none) := by
  simp only [parseVal]
  simp only [show ('[' : Char) ≠ 'n' from by decide,
    show ('[' : Char) ≠ 't' from by decide,
    show ('[' : Char) ≠ 'f' from by decide,
    show ('[' : Char) ≠ '"' from by decide, if_false, if_true, hne]

/-- The value parser on `{` followed by anything but `}` reduces to the
member-list parser. -/
theorem parseVal_obj_step (f : Nat) (c2 : Char) (t2 : List Char)
    (hne : c2 ≠ '}') :
    parseVal (f + 1) ('{' :: c2 :: t2)
      = (match parseFields f (c2 :: t2) with
         | some (o, r3) => some (.jobj o, r3)
         | none => none) := by
  simp only [parseVal]
  simp only [show ('{' : Char) ≠ 'n' from by decide,
    show ('{' : Char) ≠ 't' from by decide,
    show ('{' : Char) ≠ 'f' from by decide,
    show ('{' : Char) ≠ '"' from by decide,
    show ('{' : Char) ≠ '[' from by decide, if_false, if_true, hne]

/-- A rendered non-empty member list starts with the key's opening quote. -/
theorem encodeObj_cons_head (k : String) (v : Jsonish) (t : JObj) :
    ∃ t2, encodeObj (.ocons k v t) = '"' :: t2 := by
  cases t with
  | onil =>
      refine ⟨(escStr k.toList ++ ['"']) ++ ':' :: encodeChars v, ?_⟩
      rw [encodeObj]
      show ('"' :: (escStr k.toList ++ ['"'])) ++ ':' :: encodeChars v = _
      rw [List.cons_append]
  | ocons k2 v2 t2 =>
      refine ⟨(escStr k.toList ++ ['"'])
        ++ ':' :: (encodeChars v ++ ',' :: encodeObj (.ocons k2 v2 t2)), ?_⟩
      rw [encodeObj]
      show ('"' :: (escStr k.toList ++ ['"']))
          ++ ':' :: (encodeChars v ++ ',' :: encodeObj (.ocons k2 v2 t2)) = _
      rw [List.cons_append]

/-- The head of a rendered non-empty element list closes no bracket. -/
theorem encodeArr_cons_head (w : Jsonish) (t : JArr) :
    ∃ c2 t2, encodeArr (.acons w t) = c2 :: t2 ∧ c2 ≠ ']' ∧ c2 ≠ '}' := by
  obtain ⟨c2, tw, hw, hb1, hb2⟩ := encodeChars_head w
  cases t with
  | anil => exact ⟨c2, tw, by rw [encodeArr, hw], hb1, hb2⟩
  | acons w2 t2 =>
      refine ⟨c2, tw ++ ',' :: encodeArr (.acons w2 t2), ?_, hb1, hb2⟩
      rw [encodeArr, hw, List.cons_append]

mutual
/-- The codec round-trip, value level: with fuel at least the value's
measure, parsing its rendering followed by any remainder that cannot
extend a digit run yields the value and the remainder. -/
theorem parseVal_enc : ∀ (v : Jsonish) (fuel : Nat) (rest : List Char),
    sizeJ v ≤ fuel → noDigitHead rest = true →
    parseVal fuel (encodeChars v ++ rest) = some (v, rest)
  | .jnull, fuel, rest, hf, _ => by
      match fuel, hf with
      | f + 1, _ =>
          show parseVal (f + 1) ('n' :: 'u' :: 'l' :: 'l' :: rest) = _
          simp [parseVal]
  | .jbool true, fuel, rest, hf, _ => by
      match fuel, hf with
      | f + 1, _ =>
          show parseVal (f + 1) ('t' :: 'r' :: 'u' :: 'e' :: rest) = _
          simp [parseVal]
  | .jbool false, fuel, rest, hf, _ => by
      match fuel, hf with
      | f + 1, _ =>
          show parseVal (f + 1) ('f' :: 'a' :: 'l' :: 's' :: 'e' :: rest) = _
          simp [parseVal]
  | .jnum n, fuel, rest, hf, hr => by
      match fuel, hf with
      | f + 1, _ =>
          have hp := parseIntCs_enc n rest hr
          obtain ⟨c0, t0, h0, _, _⟩ := encodeChars_head (.jnum n)
          have hc0 : c0 = '-' ∨ isDig c0 = true := by
            by_cases hneg : n < 0
            · left
              have : encodeChars (.jnum n) = '-' :: natChars n.natAbs := by
                show intChars n = _
                rw [intChars, if_pos hneg]
              rw [this] at h0
              exact (List.cons.injEq .. ▸ h0).1.symm ▸ rfl
            · right
              have habs2 : ∀ c ∈ natChars n.natAbs, isDig c = true :=
                (natCharsGo_digits (n.natAbs + 1) n.natAbs (by omega)).2
              have : encodeChars (.jnum n) = natChars n.natAbs := by
                show intChars n = _
                rw [intChars, if_neg hneg]
              rw [this] at h0
              exact habs2 c0 (by rw [h0]; exact List.mem_cons_self c0 t0)
          rw [show encodeChars (.jnum n) ++ rest = c0 :: (t0 ++ rest) from by
              rw [h0, List.cons_append],
            parseVal_numlike f c0 (t0 ++ rest) hc0,
            show c0 :: (t0 ++ rest) = encodeChars (.jnum n) ++ rest from by
              rw [h0, List.cons_append]]
          rw [show encodeChars (.jnum n) = intChars n from rfl, hp]
  | .jstr s, fuel, rest, hf, _ => by
      match fuel, hf with
      | f + 1, _ =>
          rw [show encodeChars (.jstr s) ++ rest
              = '"' :: (escStr s.toList ++ ('"' :: rest)) from by
            show ('"' :: (escStr s.toList ++ ['"'])) ++ rest = _
            rw [List.cons_append, List.append_assoc]
            rfl]
          simp only [parseVal,
            show ('"' : Char) ≠ 'n' from by decide,
            show ('"' : Char) ≠ 't' from by decide,
            show ('"' : Char) ≠ 'f' from by decide,
            if_false, if_true]
          rw [parseStringBody_strChars s rest]
  | .jarr .anil, fuel, rest, hf, _ => by
      match fuel, hf with
      | f + 1, _ =>
          show parseVal (f + 1) ('[' :: ']' :: rest) = _
          simp [parseVal]
  | .jarr (.acons w t), fuel, rest, hf, _ => by
      match fuel, hf with
      | f + 1, hf =>
          obtain ⟨c2, t2, hA, hb1, _⟩ := encodeArr_cons_head w t
          have hsz : sizeA (.acons w t) ≤ f := by
            have : sizeJ (.jarr (.acons w t)) = sizeA (.acons w t) + 1 := rfl
            omega
          rw [show encodeChars (.jarr (.acons w t)) ++ rest
              = '[' :: c2 :: (t2 ++ (']' :: rest)) from by
            show ('[' :: (encodeArr (.acons w t) ++ [']'])) ++ rest = _
            rw [hA]
            simp,
            parseVal_arr_step f c2 (t2 ++ (']' :: rest)) hb1,
            show c2 :: (t2 ++ (']' :: rest))
              = encodeArr (.acons w t) ++ (']' :: rest) from by
            rw [hA, List.cons_append],
            parseItems_enc w t f rest hsz]
  | .jobj .onil, fuel, rest, hf, _ => by
      match fuel, hf with
      | f + 1, _ =>
          show parseVal (f + 1) ('{' :: '}' :: rest) = _
          simp [parseVal]
  | .jobj (.ocons k v t), fuel, rest, hf, _ => by
      match fuel, hf with
      | f + 1, hf =>
          have hsz : sizeO (.ocons k v t) ≤ f := by
            have : sizeJ (.jobj (.ocons k v t)) = sizeO (.ocons k v t) + 1 := rfl
            omega
          obtain ⟨t2, hO⟩ := encodeObj_cons_head k v t
          rw [show encodeChars (.jobj (.ocons k v t)) ++ rest
              = '{' :: '"' :: (t2 ++ ('}' :: rest)) from by
            show ('{' :: (encodeObj (.ocons k v t) ++ ['}'])) ++ rest = _
            rw [hO]
            simp,
            parseVal_obj_step f '"' (t2 ++ ('}' :: rest)) (by decide),
            show ('"' : Char) :: (t2 ++ ('}' :: rest))
              = encodeObj (.ocons k v t) ++ ('}' :: rest) from by
              rw [hO, List.cons_append],
            parseFields_enc k v t f rest hsz]
termination_by v _ _ _ _ => sizeOf v

/-- The codec round-trip, element-list level: a rendered non-empty element
list followed by the closing `]` parses back. -/
theorem parseItems_enc : ∀ (w : Jsonish) (t : JArr) (fuel : Nat)
    (rest : List Char), sizeA (.acons w t) ≤ fuel →
    parseItems fuel (encodeArr (.acons w t) ++ (']' :: rest))
      = some (.acons w t, rest)
  | w, t, fuel, rest, hf => by
      have hw1 := sizeJ_pos w
      match fuel, hf with
      | f + 1, hf =>
          have hszw : sizeJ w ≤ f := by
            have : sizeA (.acons w t) = sizeJ w + sizeA t + 1 := rfl
            omega
          cases t with
          | anil =>
              rw [show encodeArr (.acons w .anil) ++ (']' :: rest)
                  = encodeChars w ++ (']' :: rest) from by rw [encodeArr]]
              simp only [parseItems]
              rw [parseVal_enc w f (']' :: rest) hszw rfl]
              simp
          | acons w2 t2 =>
              have hszt : sizeA (.acons w2 t2) ≤ f := by
                have : sizeA (.acons w (.acons w2 t2))
                    = sizeJ w + sizeA (.acons w2 t2) + 1 := rfl
                omega
              rw [show encodeArr (.acons w (.acons w2 t2)) ++ (']' :: rest)
                  = encodeChars w
                    ++ (',' :: (encodeArr (.acons w2 t2) ++ (']' :: rest)))
                from by
                rw [encodeArr]
                simp]
              simp only [parseItems]
              rw [parseVal_enc w f
                (',' :: (encodeArr (.acons w2 t2) ++ (']' :: rest)))
                hszw rfl]
              simp only [show (',' : Char) ≠ ']' from by decide, if_false,
                if_true]
              rw [parseItems_enc w2 t2 f rest hszt]
termination_by w t _ _ _ => sizeOf (JArr.acons w t)

/-- The codec round-trip, member-list level: a rendered non-empty member
list followed by the closing `}` parses back. -/
theorem parseFields_enc : ∀ (k : String) (v : Jsonish) (t : JObj)
    (fuel : Nat) (rest : List Char), sizeO (.ocons k v t) ≤ fuel →
    parseFields fuel (encodeObj (.ocons k v t) ++ ('}' :: rest))
      = some (.ocons k v t, rest)
  | k, v, t, fuel, rest, hf => by
      have hv1 := sizeJ_pos v
      match fuel, hf with
      | f + 1, hf =>
          have hszv : sizeJ v ≤ f := by
            have : sizeO (.ocons k v t) = sizeJ v + sizeO t + 1 := rfl
            omega
          cases t with
          | onil =>
              rw [show encodeObj (.ocons k v .onil) ++ ('}' :: rest)
                  = '"' :: (escStr k.toList
                      ++ ('"' :: (':' :: (encodeChars v ++ ('}' :: rest)))))
                from by
                rw [encodeObj]
                show (('"' :: (escStr k.toList ++ ['"']))
                    ++ ':' :: encodeChars v) ++ ('}' :: rest) = _
                simp]
              simp only [parseFields, if_true]
              rw [parseStringBody_strChars k
                (':' :: (encodeChars v ++ ('}' :: rest)))]
              simp only [if_true]
              rw [parseVal_enc v f ('}' :: rest) hszv rfl]
              simp
          | ocons k2 v2 t2 =>
              have hszt : sizeO (.ocons k2 v2 t2) ≤ f := by
                have : sizeO (.ocons k v (.ocons k2 v2 t2))
                    = sizeJ v + sizeO (.ocons k2 v2 t2) + 1 := rfl
                omega
              rw [show encodeObj (.ocons k v (.ocons k2 v2 t2)) ++ ('}' :: rest)
                  = '"' :: (escStr k.toList
                      ++ ('"' :: (':' :: (encodeChars v
                          ++ (',' :: (encodeObj (.ocons k2 v2 t2)
                              ++ ('}' :: rest)))))))
                from by
                rw [encodeObj]
                show (('"' :: (escStr k.toList ++ ['"']))
                    ++ ':' :: (encodeChars v
                      ++ ',' :: encodeObj (.ocons k2 v2 t2)))
                    ++ ('}' :: rest) = _
                simp]
              simp only [parseFields, if_true]
              rw [parseStringBody_strChars k
                (':' :: (encodeChars v
                  ++ (',' :: (encodeObj (.ocons k2 v2 t2) ++ ('}' :: rest)))))]
              simp only [if_true]
              rw [parseVal_enc v f
                (',' :: (encodeObj (.ocons k2 v2 t2) ++ ('}' :: rest)))
                hszv rfl]
              simp only [show (',' : Char) ≠ '}' from by decide, if_false,
                if_true]
              rw [parseFields_enc k2 v2 t2 f rest hszt]
termination_by k v t _ _ _ => sizeOf (JObj.ocons k v t)
end

/-- C10 — for every array or plain-object `Jsonish` value the payload
round-trips exactly (`fromPayload (toPayload v) = v`), but strings do not
round-trip in general: `"123"` comes back as the number `123` and
`"true"` as the boolean `true`. -/
theorem payload_roundtrip :
    (∀ v : Jsonish, isArrJ v = true ∨ isObjJ v = true →
        fromPayload (some (toPayload v)) = v)
    ∧ fromPayload (some (toPayload (.jstr "123"))) = .jnum 123
    ∧ Jsonish.jnum 123 ≠ .jstr "123"
    ∧ fromPayload (some (toPayload (.jstr "true"))) = .jbool true
    ∧ Jsonish.jbool true ≠ .jstr "true" := by
  refine ⟨?_, by decide, by decide, by decide, by decide⟩
  intro v hv
  have key : ∀ u : Jsonish,
      (∃ c t, encodeChars u = c :: t) →
      fromPayload (some (⟨encodeChars u⟩ : String)) =
        (match u with
         | .jnum n => Jsonish.jnum n
         | .jbool b => .jbool b
         | .jstr t => .jstr t
         | .jarr a => .jarr a
         | .jobj o => .jobj o
         | .jnull =>
             if isStrBool ⟨encodeChars u⟩
             then .jbool (boolNormalize ⟨encodeChars u⟩)
             else .jstr ⟨encodeChars u⟩) := by
    intro u hu
    obtain ⟨c, t, hct⟩ := hu
    have hne : (⟨encodeChars u⟩ : String) ≠ "" := by
      intro hcon
      have hdata : encodeChars u = [] := congrArg String.data hcon
      rw [hct] at hdata
      exact List.cons_ne_nil c t hdata
    have hdec : jsonDecode (⟨encodeChars u⟩ : String) = some u := by
      unfold jsonDecode
      have hlen : sizeJ u ≤ (encodeChars u).length + 1 :=
        le_trans (sizeJ_le_len u) (by omega)
      have hp := parseVal_enc u ((encodeChars u).length + 1) [] hlen rfl
      rw [List.append_nil] at hp
      rw [show (⟨encodeChars u⟩ : String).toList = encodeChars u from rfl, hp]
    rw [show fromPayload (some (⟨encodeChars u⟩ : String))
        = (if (⟨encodeChars u⟩ : String) = "" then Jsonish.jstr ""
           else match jsonDecode (⟨encodeChars u⟩ : String) with
             | some (.jnum n) => Jsonish.jnum n
             | some (.jbool b) => .jbool b
             | some (.jstr t) => .jstr t
             | some (.jarr a) => .jarr a
             | some (.jobj o) => .jobj o
             | some .jnull =>
                 if isStrBool ⟨encodeChars u⟩
                 then .jbool (boolNormalize ⟨encodeChars u⟩)
                 else .jstr ⟨encodeChars u⟩
             | none =>
                 if isStrBool ⟨encodeChars u⟩
                 then .jbool (boolNormalize ⟨encodeChars u⟩)
                 else .jstr ⟨encodeChars u⟩) from rfl]
    rw [if_neg hne, hdec]
    match u with
    | .jnull => rfl
    | .jbool b => rfl
    | .jnum n => rfl
    | .jstr s => rfl
    | .jarr a => rfl
    | .jobj o => rfl
  match v, hv with
  | .jarr a, _ =>
      rw [show toPayload (.jarr a) = (⟨encodeChars (.jarr a)⟩ : String) from rfl,
        key (.jarr a) ⟨'[', encodeArr a ++ [']'], rfl⟩]
  | .jobj o, _ =>
      rw [show toPayload (.jobj o) = (⟨encodeChars (.jobj o)⟩ : String) from rfl,
        key (.jobj o) ⟨'{', encodeObj o ++ ['}'], rfl⟩]

/-- Witness for C10 at the array `[1]`: the payload `"[1]"` decodes back
to the original value. -/
theorem payload_roundtrip_witness :
    (isArrJ (Jsonish.jarr (.acons (.jnum 1) .anil)) = true
      ∨ isObjJ (Jsonish.jarr (.acons (.jnum 1) .anil)) = true)
    ∧ fromPayload (some (toPayload (Jsonish.jarr (.acons (.jnum 1) .anil))))
        = Jsonish.jarr (.acons (.jnum 1) .anil) :=
  ⟨Or.inl (by decide), payload_roundtrip.1 _ (Or.inl (by decide))⟩
